import Mathlib

/-!
# Verification of the Path-Planning 2D grid-search core

This file gives a shallow embedding, in Lean 4, of the search core of the
Path-Planning repository (Search_2D: Real_Astar.py, Standard_Dijkstra.py,
Standard_BFS.py, Standard_DFS.py) and proves properties of the embedded
definitions.

Numeric model: the Python code computes edge costs with `math.hypot`, which on
the unit king-move offsets used by the engines yields exactly 1 (orthogonal
moves) or √2 (diagonal moves).  All quantities the engines manipulate therefore
live in the subfield ℚ + ℚ·√2 of ℝ; we model it exactly by the type `Q2` below
(pairs of rationals) with a decidable linear order transferred from ℝ, and
model the IEEE value `math.inf` by `WithTop Q2`.

The files Search_2D/env.py and Search_2D/Astar.py (the base class of the
Dijkstra/BFS/DFS variants) are not part of the sources; where a definition
comes from them it is marked `Modelled from the spec:`.
-/

/- `Rat.add` etc. are irreducible by default, which blocks `decide` on the
concrete runs below; re-expose them to the evaluator (the kernel ignores
reducibility annotations, so proofs are unaffected). -/
unseal Rat.add
unseal Rat.mul
unseal Rat.sub
namespace Search2D

/-- The exact cost field ℚ + ℚ·√2: `⟨a, b⟩` denotes the real number a + b·√2.
This is the exact carrier of every numeric value computed by the engines
(Python computes the same quantities in floating point). -/
@[ext]
structure Q2 where
  a : ℚ
  b : ℚ
  deriving DecidableEq, Repr

namespace Q2

instance : Zero Q2 := ⟨⟨0, 0⟩⟩
instance : One Q2 := ⟨⟨1, 0⟩⟩
instance : Add Q2 := ⟨fun x y => ⟨x.a + y.a, x.b + y.b⟩⟩
instance : Neg Q2 := ⟨fun x => ⟨-x.a, -x.b⟩⟩
instance : Sub Q2 := ⟨fun x y => ⟨x.a - y.a, x.b - y.b⟩⟩
instance : Mul Q2 := ⟨fun x y => ⟨x.a * y.a + 2 * (x.b * y.b), x.a * y.b + x.b * y.a⟩⟩
instance : NatCast Q2 := ⟨fun n => ⟨(n : ℚ), 0⟩⟩
instance : IntCast Q2 := ⟨fun n => ⟨(n : ℚ), 0⟩⟩

/-- √2 as an element of `Q2`. -/
def sqrt2 : Q2 := ⟨0, 1⟩

@[simp] theorem zero_a : (0 : Q2).a = 0 := rfl
@[simp] theorem zero_b : (0 : Q2).b = 0 := rfl
@[simp] theorem one_a : (1 : Q2).a = 1 := rfl
@[simp] theorem one_b : (1 : Q2).b = 0 := rfl
@[simp] theorem add_a (x y : Q2) : (x + y).a = x.a + y.a := rfl
@[simp] theorem add_b (x y : Q2) : (x + y).b = x.b + y.b := rfl
@[simp] theorem neg_a (x : Q2) : (-x).a = -x.a := rfl
@[simp] theorem neg_b (x : Q2) : (-x).b = -x.b := rfl
@[simp] theorem sub_a (x y : Q2) : (x - y).a = x.a - y.a := rfl
@[simp] theorem sub_b (x y : Q2) : (x - y).b = x.b - y.b := rfl
@[simp] theorem mul_a (x y : Q2) : (x * y).a = x.a * y.a + 2 * (x.b * y.b) := rfl
@[simp] theorem mul_b (x y : Q2) : (x * y).b = x.a * y.b + x.b * y.a := rfl
@[simp] theorem natCast_a (n : ℕ) : ((n : Q2)).a = (n : ℚ) := rfl
@[simp] theorem natCast_b (n : ℕ) : ((n : Q2)).b = 0 := rfl
@[simp] theorem intCast_a (n : ℤ) : ((n : Q2)).a = (n : ℚ) := rfl
@[simp] theorem intCast_b (n : ℤ) : ((n : Q2)).b = 0 := rfl

instance instCommRing : CommRing Q2 where
  add_assoc x y z := by ext <;> simp <;> ring
  zero_add x := by ext <;> simp
  add_zero x := by ext <;> simp
  add_comm x y := by ext <;> simp <;> ring
  left_distrib x y z := by ext <;> simp <;> ring
  right_distrib x y z := by ext <;> simp <;> ring
  zero_mul x := by ext <;> simp
  mul_zero x := by ext <;> simp
  mul_assoc x y z := by ext <;> simp <;> ring
  one_mul x := by ext <;> simp
  mul_one x := by ext <;> simp
  mul_comm x y := by ext <;> simp <;> ring
  neg_add_cancel x := by ext <;> simp
  sub_eq_add_neg x y := by ext <;> simp <;> ring
  nsmul := nsmulRec
  zsmul := zsmulRec
  natCast := fun n => ⟨(n : ℚ), 0⟩
  intCast := fun n => ⟨(n : ℚ), 0⟩
  natCast_zero := by ext <;> simp
  natCast_succ n := by ext <;> simp
  intCast_ofNat n := by ext <;> simp
  intCast_negSucc n := by ext <;> simp [Int.negSucc_eq]

/-- Interpretation into ℝ: `⟨a, b⟩` denotes a + b·√2.  Proof-only glue (the
embedded code never computes with it). -/
noncomputable def toR (x : Q2) : ℝ := (x.a : ℝ) + (x.b : ℝ) * Real.sqrt 2

theorem sq_sqrt2 : Real.sqrt 2 ^ 2 = 2 := Real.sq_sqrt (by norm_num)

theorem sqrt2_pos : (0 : ℝ) < Real.sqrt 2 := Real.sqrt_pos.mpr (by norm_num)

theorem toR_add (x y : Q2) : (x + y).toR = x.toR + y.toR := by
  simp [toR]; ring

theorem toR_sub (x y : Q2) : (x - y).toR = x.toR - y.toR := by
  simp [toR]; ring

theorem toR_zero : (0 : Q2).toR = 0 := by simp [toR]

theorem toR_one : (1 : Q2).toR = 1 := by simp [toR]

theorem toR_mul (x y : Q2) : (x * y).toR = x.toR * y.toR := by
  simp only [toR, mul_a, mul_b]
  push_cast
  linear_combination (-(x.b : ℝ) * (y.b : ℝ)) * sq_sqrt2

theorem toR_natCast (n : ℕ) : ((n : Q2)).toR = (n : ℝ) := by simp [toR]

theorem toR_injective : Function.Injective toR := by
  intro x y hxy
  by_cases hb : x.b = y.b
  · ext
    · have h := hxy
      simp only [toR, hb] at h
      exact_mod_cast add_right_cancel h
    · exact hb
  · exfalso
    have hne : ((y.b - x.b : ℚ) : ℝ) ≠ 0 := by
      intro h
      apply hb
      have h0 : (y.b - x.b : ℚ) = 0 := by exact_mod_cast h
      linarith [sub_eq_zero.mp h0]
    simp only [toR] at hxy
    have key : Real.sqrt 2 * ((y.b:ℝ) - (x.b:ℝ)) = (x.a:ℝ) - (y.a:ℝ) := by
      linear_combination -hxy
    have hs : Real.sqrt 2 = (((x.a - y.a) / (y.b - x.b) : ℚ) : ℝ) := by
      have hcast : ((((x.a - y.a) / (y.b - x.b) : ℚ)) : ℝ) =
          ((x.a:ℝ) - (y.a:ℝ)) / ((y.b:ℝ) - (x.b:ℝ)) := by push_cast; ring
      rw [hcast, eq_div_iff]
      · exact key
      · intro h0
        apply hne
        push_cast
        linarith
    exact irrational_sqrt_two ⟨_, hs.symm⟩

/-- Decidable nonnegativity test for a + b·√2 (pure rational arithmetic). -/
def nneg (x : Q2) : Prop :=
  if 0 ≤ x.a then (0 ≤ x.b ∨ 2 * x.b ^ 2 ≤ x.a ^ 2)
  else (0 ≤ x.b ∧ x.a ^ 2 ≤ 2 * x.b ^ 2)

instance (x : Q2) : Decidable x.nneg := by
  unfold nneg
  infer_instance

theorem nneg_iff (x : Q2) : x.nneg ↔ 0 ≤ x.toR := by
  have hsnn : (0:ℝ) ≤ Real.sqrt 2 := Real.sqrt_nonneg 2
  unfold nneg toR
  split
  case isTrue ha =>
    have ha2 : (0:ℝ) ≤ (x.a : ℝ) := by exact_mod_cast ha
    constructor
    · rintro (hb | hsq)
      · have hb2 : (0:ℝ) ≤ (x.b : ℝ) := by exact_mod_cast hb
        nlinarith
      · have hsq2 : (2 * (x.b:ℝ) ^ 2) ≤ (x.a:ℝ) ^ 2 := by exact_mod_cast hsq
        by_cases hb : 0 ≤ (x.b : ℝ)
        · nlinarith
        · push_neg at hb
          nlinarith [sq_sqrt2, sq_nonneg ((x.a:ℝ) + (x.b:ℝ) * Real.sqrt 2)]
    · intro h
      by_cases hb : 0 ≤ x.b
      · exact Or.inl hb
      · right
        push_neg at hb
        have hb2 : ((x.b:ℝ)) < 0 := by exact_mod_cast hb
        have hfac : (0:ℝ) ≤ ((x.a:ℝ) + (x.b:ℝ) * Real.sqrt 2) *
            ((x.a:ℝ) - (x.b:ℝ) * Real.sqrt 2) := by
          apply mul_nonneg h
          nlinarith
        have hexp : ((x.a:ℝ) + (x.b:ℝ) * Real.sqrt 2) *
            ((x.a:ℝ) - (x.b:ℝ) * Real.sqrt 2) = (x.a:ℝ)^2 - 2 * (x.b:ℝ)^2 := by
          linear_combination (-(x.b:ℝ)^2) * sq_sqrt2
        rw [hexp] at hfac
        have : (2 * (x.b:ℝ) ^ 2) ≤ (x.a:ℝ) ^ 2 := by linarith
        exact_mod_cast this
  case isFalse ha =>
    push_neg at ha
    have ha2 : ((x.a:ℝ)) < 0 := by exact_mod_cast ha
    constructor
    · rintro ⟨hb, hsq⟩
      have hb2 : (0:ℝ) ≤ (x.b : ℝ) := by exact_mod_cast hb
      have hsq2 : ((x.a:ℝ) ^ 2) ≤ 2 * (x.b:ℝ) ^ 2 := by exact_mod_cast hsq
      by_contra hc
      push_neg at hc
      have p1 : (0:ℝ) < -((x.a:ℝ) + (x.b:ℝ) * Real.sqrt 2) := by linarith
      have p2 : (0:ℝ) < -(x.a:ℝ) + (x.b:ℝ) * Real.sqrt 2 := by nlinarith
      have hfac : (0:ℝ) < (-((x.a:ℝ) + (x.b:ℝ) * Real.sqrt 2)) *
          (-(x.a:ℝ) + (x.b:ℝ) * Real.sqrt 2) := mul_pos p1 p2
      have hexp : (-((x.a:ℝ) + (x.b:ℝ) * Real.sqrt 2)) *
          (-(x.a:ℝ) + (x.b:ℝ) * Real.sqrt 2) = (x.a:ℝ)^2 - 2 * (x.b:ℝ)^2 := by
        linear_combination (-(x.b:ℝ)^2) * sq_sqrt2
      rw [hexp] at hfac
      linarith
    · intro h
      have hb : 0 ≤ x.b := by
        by_contra hb
        push_neg at hb
        have hb2 : ((x.b:ℝ)) < 0 := by exact_mod_cast hb
        nlinarith
      refine ⟨hb, ?_⟩
      have hb2 : (0:ℝ) ≤ (x.b:ℝ) := by exact_mod_cast hb
      have hfac : (0:ℝ) ≤ ((x.b:ℝ) * Real.sqrt 2 + (x.a:ℝ)) *
          ((x.b:ℝ) * Real.sqrt 2 - (x.a:ℝ)) := by
        apply mul_nonneg
        · linarith
        · nlinarith
      have hexp : ((x.b:ℝ) * Real.sqrt 2 + (x.a:ℝ)) *
          ((x.b:ℝ) * Real.sqrt 2 - (x.a:ℝ)) = 2 * (x.b:ℝ)^2 - (x.a:ℝ)^2 := by
        linear_combination ((x.b:ℝ)^2) * sq_sqrt2
      rw [hexp] at hfac
      have : ((x.a:ℝ) ^ 2) ≤ 2 * (x.b:ℝ) ^ 2 := by linarith
      exact_mod_cast this

instance instLinearOrder : LinearOrder Q2 where
  le x y := nneg (y - x)
  lt x y := ¬ nneg (x - y)
  le_refl x := by
    show nneg (x - x)
    rw [nneg_iff, toR_sub]
    linarith
  le_trans x y z hxy hyz := by
    show nneg (z - x)
    rw [nneg_iff, toR_sub]
    have h1 : 0 ≤ (y - x).toR := (nneg_iff _).mp hxy
    have h2 : 0 ≤ (z - y).toR := (nneg_iff _).mp hyz
    rw [toR_sub] at h1 h2
    linarith
  le_antisymm x y hxy hyx := by
    have h1 : 0 ≤ (y - x).toR := (nneg_iff _).mp hxy
    have h2 : 0 ≤ (x - y).toR := (nneg_iff _).mp hyx
    rw [toR_sub] at h1 h2
    exact toR_injective (by linarith)
  le_total x y := by
    show nneg (y - x) ∨ nneg (x - y)
    rw [nneg_iff, nneg_iff, toR_sub, toR_sub]
    rcases le_total x.toR y.toR with h | h
    · exact Or.inl (by linarith)
    · exact Or.inr (by linarith)
  lt_iff_le_not_le x y := by
    show ¬ nneg (x - y) ↔ nneg (y - x) ∧ ¬ nneg (x - y)
    rw [nneg_iff, nneg_iff, toR_sub, toR_sub]
    constructor
    · intro h
      push_neg at h
      exact ⟨by linarith, fun hc => by linarith⟩
    · exact fun h => h.2
  decidableLE := fun x y => inferInstanceAs (Decidable (nneg (y - x)))

theorem le_iff_toR (x y : Q2) : x ≤ y ↔ x.toR ≤ y.toR := by
  show nneg (y - x) ↔ x.toR ≤ y.toR
  rw [nneg_iff, toR_sub]
  constructor <;> intro h <;> linarith

theorem lt_iff_toR (x y : Q2) : x < y ↔ x.toR < y.toR := by
  rw [lt_iff_not_le, le_iff_toR, lt_iff_not_le]

instance : LinearOrderedCommRing Q2 :=
  { instCommRing, instLinearOrder with
    add_le_add_left := fun x y hxy z => by
      rw [le_iff_toR] at hxy ⊢
      rw [toR_add, toR_add]
      linarith
    zero_le_one := by
      rw [le_iff_toR, toR_zero, toR_one]
      norm_num
    mul_pos := fun x y hx hy => by
      rw [lt_iff_toR] at hx hy ⊢
      rw [toR_mul, toR_zero] at *
      exact mul_pos hx hy
    exists_pair_ne := ⟨0, 1, by
      intro h
      have ha := congrArg Q2.a h
      simp at ha⟩ }

end Q2

/-! ## The grid, shared primitives (Real_Astar.py lines 73-74, 287-352, 366-397)

`env.py` is not among the sources; the spec describes the Environment as an
immutable set of blocked coordinates, so every definition below is
parameterized by `obs`.  The base class `Astar.py` of the Dijkstra/BFS/DFS
variants is also missing; per the spec those variants share the
neighbor-generation, collision-check and path-extraction primitives with the
A* engine, so the definitions below are used for all engines. -/

/-- A grid coordinate: a pair of integers, as in the Python tuples. -/
abbrev Coord : Type := ℤ × ℤ

/-- Modelled from the spec: the Environment is an immutable set of blocked
coordinates (env.py is not among the sources); we carry it as an explicit
parameter and use only membership. -/
abbrev Obs : Type := List Coord

/-- Python dict lookup on an association list (later bindings shadow earlier
ones because `dinsert` conses in front). -/
def dlookup {α : Type} : List (Coord × α) → Coord → Option α
  | [], _ => none
  | (k, v) :: rest, key => if key = k then some v else dlookup rest key

/-- Python dict assignment `d[k] = v`. -/
def dinsert {α : Type} (l : List (Coord × α)) (k : Coord) (v : α) : List (Coord × α) :=
  (k, v) :: l

/-- The 8-direction move set of `AStar.__init__` (Real_Astar.py line 73),
in source order. -/
def u_set8 : List Coord :=
  [(-1, 0), (-1, 1), (0, 1), (1, 1), (1, 0), (1, -1), (0, -1), (-1, -1)]

/-- The 4-direction move set used by the Dijkstra/BFS/DFS overrides
(up, down, left, right), in source order. -/
def u_set4 : List Coord := [(0, 1), (0, -1), (-1, 0), (1, 0)]

/-- `AStar.get_neighbor` (Real_Astar.py line 287): all offsets applied to `s`,
with `u_set` a parameter (the attribute the subclasses override). -/
def get_neighbor (uset : List Coord) (s : Coord) : List Coord :=
  uset.map (fun u => (s.1 + u.1, s.2 + u.2))

/-- `AStar.is_collision` (Real_Astar.py lines 330-352): an endpoint in the
obstacle set blocks the move; a move changing both coordinates additionally
computes the two corner cells `s1`, `s2` and is blocked if either is an
obstacle. -/
def is_collision (obs : Obs) (s_start s_end : Coord) : Bool :=
  if s_start ∈ obs ∨ s_end ∈ obs then true
  else if s_start.1 ≠ s_end.1 ∧ s_start.2 ≠ s_end.2 then
    let corners :=
      if s_end.1 - s_start.1 = s_start.2 - s_end.2 then
        ((min s_start.1 s_end.1, min s_start.2 s_end.2),
         (max s_start.1 s_end.1, max s_start.2 s_end.2))
      else
        ((min s_start.1 s_end.1, max s_start.2 s_end.2),
         (max s_start.1 s_end.1, min s_start.2 s_end.2))
    if corners.1 ∈ obs ∨ corners.2 ∈ obs then true else false
  else false

/-- A terrain overlay: the `terrain_cost` dict (Coordinate → multiplier). -/
abbrev Terrain : Type := List (Coord × ℕ)

/-- `AStar.get_terrain_cost` (Real_Astar.py lines 159-169): dict lookup with
default 1. -/
def get_terrain_cost (terrain : Terrain) (node : Coord) : ℕ :=
  (dlookup terrain node).getD 1

/-- The value of `math.hypot(g.1 - s.1, g.2 - s.2)` on the pairs the engines
feed it (offsets from `u_set8`/`u_set4`, all components in {-1,0,1}):
0 if the endpoints coincide, √2 for a diagonal move, 1 for an orthogonal
move. -/
def hypotBase (s g : Coord) : Q2 :=
  if s.1 = g.1 ∧ s.2 = g.2 then 0
  else if s.1 ≠ g.1 ∧ s.2 ≠ g.2 then Q2.sqrt2 else 1

/-- The Manhattan branch of `AStar.heuristic` (Real_Astar.py lines 384-397).
(The Euclidean branch computes `math.hypot` of arbitrary deltas, whose exact
values lie outside ℚ+ℚ√2; the engine below therefore takes the heuristic
function as a parameter, mirroring the bound method `self.heuristic`.) -/
def manhattan (goal s : Coord) : Q2 := ((|goal.1 - s.1| + |goal.2 - s.2| : ℤ) : Q2)

/-- `AStar.extract_path` (Real_Astar.py lines 366-382), one loop iteration per
fuel unit: `s = PARENT[s]; path.append(s); if s == s_start: break`.
A missing key means the Python code raises `KeyError`; we return `none`.
The caller passes fuel `PARENT.length + 1`, enough for any acyclic parent
chain (proved below), so `none` for in-spec states means exactly the
`KeyError`. -/
def extract_path_aux (PARENT : List (Coord × Coord)) (s_start : Coord) :
    ℕ → Coord → List Coord → Option (List Coord)
  | 0, _, _ => none
  | fuel + 1, s, path =>
    match dlookup PARENT s with
    | none => none
    | some p =>
      if p = s_start then some (path ++ [p])
      else extract_path_aux PARENT s_start fuel p (path ++ [p])

/-- `AStar.extract_path`: walk `PARENT` from the goal to the start. -/
def extract_path (PARENT : List (Coord × Coord)) (s_start s_goal : Coord) :
    Option (List Coord) :=
  extract_path_aux PARENT s_start (PARENT.length + 1) s_goal [s_goal]

/-! ## Priority entries and the open container

The Python engines keep `OPEN` as a `heapq` binary heap of tuples
`(priority, coordinate)` compared lexicographically.  A binary heap pop
always returns the minimum element value of the current multiset, so for the
A*/Dijkstra engines (which never inspect the heap layout) we model `OPEN` as
the list of its entries and pop the lexicographic minimum value; the BFS
variant reads `OPEN[-1]`, the last slot of the underlying array, so for it we
model the CPython heap array operations exactly (below). -/

/-- An open-container entry `(priority, coordinate)`. -/
abbrev Entry : Type := WithTop Q2 × Coord

/-- Python tuple comparison `(p, (x, y)) < (q, (u, v))`, lexicographic. -/
def entryLt (e f : Entry) : Prop :=
  e.1 < f.1 ∨ (e.1 = f.1 ∧ (e.2.1 < f.2.1 ∨ (e.2.1 = f.2.1 ∧ e.2.2 < f.2.2)))

instance (e f : Entry) : Decidable (entryLt e f) := by
  unfold entryLt
  infer_instance

/-- The minimum entry value of `e :: rest` under the tuple order. -/
def minEntry (e : Entry) : List Entry → Entry
  | [] => e
  | f :: rest => minEntry (if entryLt f e then f else e) rest

/-- `heapq.heappop` at the value level: return the minimum entry value and
the list with one occurrence of it removed. -/
def popMin (l : List Entry) : Option (Entry × List Entry) :=
  match l with
  | [] => none
  | e :: rest =>
    let m := minEntry e rest
    some (m, l.erase m)

/-! ## The A* engine: `AStar.searching` (Real_Astar.py lines 171-232)

Parameters mirror the constructor attributes: the obstacle set, the terrain
overlay, the move set `u_set`, the heuristic weight `w`
(`heuristic_weight`), the heuristic function `hfun` (`self.heuristic`), and
the endpoints. -/

/-- The search state owned by one `searching` invocation. -/
structure AState where
  OPEN : List Entry
  CLOSED : List Coord
  PARENT : List (Coord × Coord)
  g : List (Coord × WithTop Q2)

/-- Current `g` value of `x` (missing keys behave as +∞: the code only reads
keys it has written, and writes +∞ as the first value of any new key). -/
def gval (σ : AState) (x : Coord) : WithTop Q2 :=
  (dlookup σ.g x).getD ⊤

namespace Real_Astar

section Engine

variable (obs : Obs) (terrain : Terrain) (uset : List Coord) (w : Q2)
variable (hfun : Coord → Q2) (s_start s_goal : Coord)

/-- `AStar.cost` (Real_Astar.py lines 296-328): +∞ on collision, else
Euclidean step length × terrain multiplier of the destination. -/
def cost (s g : Coord) : WithTop Q2 :=
  if is_collision obs s g then ⊤
  else ((hypotBase s g * (get_terrain_cost terrain g : Q2) : Q2) : WithTop Q2)

/-- `AStar.f_value` (Real_Astar.py lines 354-364): `g[s] + w * h(s)`. -/
def f_value (σ : AState) (s : Coord) : WithTop Q2 :=
  gval σ s + ((w * hfun s : Q2) : WithTop Q2)

/-- Body of the neighbor loop (Real_Astar.py lines 205-229): relax the edge
`s → s_n`, updating `g`, `PARENT` and pushing `(f_value(s_n), s_n)` on
improvement. -/
def relax (σ : AState) (s s_n : Coord) : AState :=
  let new_cost := gval σ s + cost obs terrain s s_n
  let g1 := if (dlookup σ.g s_n).isNone then dinsert σ.g s_n ⊤ else σ.g
  if new_cost < (dlookup g1 s_n).getD ⊤ then
    let σ2 : AState :=
      { σ with g := dinsert g1 s_n new_cost, PARENT := dinsert σ.PARENT s_n s }
    { σ2 with OPEN := (f_value w hfun σ2 s_n, s_n) :: σ2.OPEN }
  else { σ with g := g1 }

/-- One full expansion of `s`: relax every neighbor in `u_set` order. -/
def relaxAll (σ : AState) (s : Coord) : AState :=
  (get_neighbor uset s).foldl (fun σ s_n => relax obs terrain w hfun σ s s_n) σ

/-- The main loop of `AStar.searching`, one pop per fuel unit: pop the
minimum entry, append its coordinate to `CLOSED` unconditionally, stop when
it is the goal, otherwise expand it. -/
def searching_loop : ℕ → AState → AState
  | 0, σ => σ
  | fuel + 1, σ =>
    match popMin σ.OPEN with
    | none => σ
    | some (e, rest) =>
      let s := e.2
      let σ1 : AState := { σ with OPEN := rest, CLOSED := σ.CLOSED ++ [s] }
      if s = s_goal then σ1
      else searching_loop fuel (relaxAll obs terrain uset w hfun σ1 s)

/-- The initial search state (Real_Astar.py lines 184-191): `PARENT[start] =
start`, `g[start] = 0`, `g[goal] = +∞`, push `(f_value(start), start)`. -/
def init_state : AState :=
  let σ : AState :=
    { OPEN := [], CLOSED := [], PARENT := dinsert [] s_start s_start,
      g := dinsert (dinsert [] s_start 0) s_goal ⊤ }
  { σ with OPEN := [(f_value w hfun σ s_start, s_start)] }

/-- `AStar.searching`: run the loop, then return
`(extract_path(PARENT), CLOSED)`; the final state is also exposed for the
statements about `g`. -/
def searching (fuel : ℕ) : Option (List Coord) × List Coord :=
  let σ := searching_loop obs terrain uset w hfun s_goal fuel
    (init_state w hfun s_start s_goal)
  (extract_path σ.PARENT s_start s_goal, σ.CLOSED)

/-- The final state of `AStar.searching` (for claims about `g`/`PARENT`). -/
def searching_state (fuel : ℕ) : AState :=
  searching_loop obs terrain uset w hfun s_goal fuel
    (init_state w hfun s_start s_goal)

end Engine

end Real_Astar

/-! ## The Dijkstra variant: `Standard_Dijkstra.py`

`Dijkstra` subclasses the missing `Astar.py` base; per the spec it shares the
collision/neighbor/extraction primitives (modelled above) and overrides
`u_set` to the 4 orthogonal directions, `cost` to the terrain-only model, and
`searching` to push raw `new_cost` priorities. -/

namespace Standard_Dijkstra

section Engine

variable (obs : Obs) (terrain : Terrain) (s_start s_goal : Coord)

/-- `Dijkstra.cost` (Standard_Dijkstra.py lines 150-172): +∞ on collision,
else the terrain multiplier of the destination. -/
def cost (s g : Coord) : WithTop Q2 :=
  if is_collision obs s g then ⊤
  else (((get_terrain_cost terrain g : ℕ) : Q2) : WithTop Q2)

/-- Body of the neighbor loop (Standard_Dijkstra.py lines 201-225): like the
A* relax, but the pushed priority is `new_cost` itself. -/
def relax (σ : AState) (s s_n : Coord) : AState :=
  let new_cost := gval σ s + cost obs terrain s s_n
  let g1 := if (dlookup σ.g s_n).isNone then dinsert σ.g s_n ⊤ else σ.g
  if new_cost < (dlookup g1 s_n).getD ⊤ then
    { σ with OPEN := (new_cost, s_n) :: σ.OPEN,
             g := dinsert g1 s_n new_cost,
             PARENT := dinsert σ.PARENT s_n s }
  else { σ with g := g1 }

/-- One full expansion of `s` over the 4-direction move set. -/
def relaxAll (σ : AState) (s : Coord) : AState :=
  (get_neighbor u_set4 s).foldl (fun σ s_n => relax obs terrain σ s s_n) σ

/-- The main loop of `Dijkstra.searching` (Standard_Dijkstra.py lines
189-226). -/
def searching_loop : ℕ → AState → AState
  | 0, σ => σ
  | fuel + 1, σ =>
    match popMin σ.OPEN with
    | none => σ
    | some (e, rest) =>
      let s := e.2
      let σ1 : AState := { σ with OPEN := rest, CLOSED := σ.CLOSED ++ [s] }
      if s = s_goal then σ1
      else searching_loop fuel (relaxAll obs terrain σ1 s)

/-- Initial state (Standard_Dijkstra.py lines 180-187): as for A*, but the
initial push is literally `(0, s_start)`. -/
def init_state : AState :=
  { OPEN := [((0 : Q2), s_start)], CLOSED := [],
    PARENT := dinsert [] s_start s_start,
    g := dinsert (dinsert [] s_start 0) s_goal ⊤ }

/-- `Dijkstra.searching`. -/
def searching (fuel : ℕ) : Option (List Coord) × List Coord :=
  let σ := searching_loop obs terrain s_goal fuel (init_state s_start s_goal)
  (extract_path σ.PARENT s_start s_goal, σ.CLOSED)

/-- The final state of `Dijkstra.searching`. -/
def searching_state (fuel : ℕ) : AState :=
  searching_loop obs terrain s_goal fuel (init_state s_start s_goal)

end Engine

end Standard_Dijkstra

/-! ## CPython `heapq` on the underlying array

The BFS variant reads `self.OPEN[-1]`, the last slot of the heap's underlying
list, so its behaviour depends on the exact array layout.  These definitions
transcribe CPython's `heappush`/`heappop` (`_siftdown`/`_siftup`) on a
`List Entry`, comparing with the tuple order `entryLt`. -/

/-- CPython `heapq._siftdown`: bubble `newitem` from `pos` toward
`startpos`, shifting larger parents down; finally store `newitem`.  The fuel
argument (always called with `fuel ≥ pos`) only makes the recursion
structural: `pos` strictly decreases at every step, so the fuel never runs
out before the loop exits. -/
def siftdownLoop : ℕ → List Entry → ℕ → ℕ → Entry → List Entry
  | 0, heap, _, pos, newitem => heap.set pos newitem
  | fuel + 1, heap, startpos, pos, newitem =>
    if startpos < pos then
      let parentpos := (pos - 1) / 2
      let parent := (heap.get? parentpos).getD newitem
      if entryLt newitem parent then
        siftdownLoop fuel (heap.set pos parent) startpos parentpos newitem
      else heap.set pos newitem
    else heap.set pos newitem

/-- CPython `heapq._siftup`: walk the smaller-child path down from `pos`,
then sift the moved-up last element back down.  The fuel (always called with
`fuel ≥ heap.length`) only makes the recursion structural: `pos` at least
doubles every step. -/
def siftupLoop : ℕ → List Entry → ℕ → ℕ → Entry → List Entry
  | 0, heap, startpos, pos, newitem => siftdownLoop pos heap startpos pos newitem
  | fuel + 1, heap, startpos, pos, newitem =>
    let endpos := heap.length
    let childpos := 2 * pos + 1
    if childpos < endpos then
      let rightpos := childpos + 1
      let cp := if rightpos < endpos ∧
          ¬ entryLt ((heap.get? childpos).getD newitem) ((heap.get? rightpos).getD newitem)
        then rightpos else childpos
      let child := (heap.get? cp).getD newitem
      siftupLoop fuel (heap.set pos child) startpos cp newitem
    else siftdownLoop pos heap startpos pos newitem

/-- CPython `heapq.heappush`. -/
def heappush (heap : List Entry) (item : Entry) : List Entry :=
  siftdownLoop heap.length (heap ++ [item]) 0 heap.length item

/-- CPython `heapq.heappop`; `none` on the empty heap (Python raises). -/
def heappop (heap : List Entry) : Option (Entry × List Entry) :=
  match heap.getLast? with
  | none => none
  | some lastelt =>
    let rest := heap.dropLast
    if rest.isEmpty then some (lastelt, [])
    else
      let returnitem := (rest.get? 0).getD lastelt
      let rest2 := rest.set 0 lastelt
      some (returnitem, siftupLoop rest2.length rest2 0 0 lastelt)

/-! ## The BFS variant: `Standard_BFS.py`

`BFS` subclasses the missing `Astar.py` base (shared primitives modelled
above), overrides `u_set` to the 4 orthogonal directions and `cost` to the
unit model, and simulates a FIFO queue by pushing with priority
`OPEN[-1][0] + 1` — the priority of the *last array slot* of the heap. -/

namespace Standard_BFS

section Engine

variable (obs : Obs) (s_start s_goal : Coord)

/-- `BFS.cost` (Standard_BFS.py lines 38-51): +∞ on collision, else 1. -/
def cost (s g : Coord) : WithTop Q2 :=
  if is_collision obs s g then ⊤ else ((1 : Q2) : WithTop Q2)

/-- Body of the neighbor loop (Standard_BFS.py lines 81-99): improvement
updates `g`/`PARENT` and pushes with priority `OPEN[-1][0] + 1` (0 when the
heap is empty). -/
def relax (σ : AState) (s s_n : Coord) : AState :=
  let new_cost := gval σ s + cost obs s s_n
  let g1 := if (dlookup σ.g s_n).isNone then dinsert σ.g s_n ⊤ else σ.g
  if new_cost < (dlookup g1 s_n).getD ⊤ then
    let prior : WithTop Q2 :=
      match σ.OPEN.getLast? with
      | some e => e.1 + 1
      | none => 0
    { σ with OPEN := heappush σ.OPEN (prior, s_n),
             g := dinsert g1 s_n new_cost,
             PARENT := dinsert σ.PARENT s_n s }
  else { σ with g := g1 }

/-- One full expansion of `s` over the 4-direction move set. -/
def relaxAll (σ : AState) (s : Coord) : AState :=
  (get_neighbor u_set4 s).foldl (fun σ s_n => relax obs σ s s_n) σ

/-- The main loop of `BFS.searching` (Standard_BFS.py lines 69-99), popping
with the exact CPython heap. -/
def searching_loop : ℕ → AState → AState
  | 0, σ => σ
  | fuel + 1, σ =>
    match heappop σ.OPEN with
    | none => σ
    | some (e, rest) =>
      let s := e.2
      let σ1 : AState := { σ with OPEN := rest, CLOSED := σ.CLOSED ++ [s] }
      if s = s_goal then σ1
      else searching_loop fuel (relaxAll obs σ1 s)

/-- Initial state (Standard_BFS.py lines 59-67). -/
def init_state : AState :=
  { OPEN := heappush [] ((0 : Q2), s_start), CLOSED := [],
    PARENT := dinsert [] s_start s_start,
    g := dinsert (dinsert [] s_start 0) s_goal ⊤ }

/-- `BFS.searching`. -/
def searching (fuel : ℕ) : Option (List Coord) × List Coord :=
  let σ := searching_loop obs s_goal fuel (init_state s_start s_goal)
  (extract_path σ.PARENT s_start s_goal, σ.CLOSED)

/-- The final state of `BFS.searching`. -/
def searching_state (fuel : ℕ) : AState :=
  searching_loop obs s_goal fuel (init_state s_start s_goal)

end Engine

end Standard_BFS

/-! ## The DFS variant: `Standard_DFS.py`

Explicit stack (Python list: push/pop at the tail), eager visited-marking at
push time; debug printing ignored. -/

namespace Standard_DFS

/-- The DFS search state: stack, visited set, trace, parent and `g` maps. -/
structure DState where
  stack : List Coord
  visited : List Coord
  CLOSED : List Coord
  PARENT : List (Coord × Coord)
  g : List (Coord × WithTop Q2)

section Engine

variable (obs : Obs) (s_start s_goal : Coord)

/-- Body of the neighbor loop (Standard_DFS.py lines 112-126): push `s_n` iff
not yet visited and not colliding; mark visited at push time. -/
def push_neighbor (σ : DState) (s s_n : Coord) : DState :=
  if s_n ∉ σ.visited ∧ ¬ (is_collision obs s s_n = true) then
    { σ with visited := s_n :: σ.visited,
             PARENT := dinsert σ.PARENT s_n s,
             g := dinsert σ.g ((s_n : Coord))
               ((dlookup σ.g s).getD ⊤ + ((1 : Q2) : WithTop Q2)),
             stack := σ.stack ++ [s_n] }
  else σ

/-- Process all neighbors of `s` in `u_set` order. -/
def push_neighbors (σ : DState) (s : Coord) : DState :=
  (get_neighbor u_set4 s).foldl (fun σ s_n => push_neighbor obs σ s s_n) σ

/-- The main loop of `DFS.searching` (Standard_DFS.py lines 86-138): pop the
top of the stack, record it, stop at the goal, else push fresh neighbors. -/
def searching_loop : ℕ → DState → DState
  | 0, σ => σ
  | fuel + 1, σ =>
    match σ.stack.getLast? with
    | none => σ
    | some s =>
      let σ1 : DState :=
        { σ with stack := σ.stack.dropLast, CLOSED := σ.CLOSED ++ [s] }
      if s = s_goal then σ1
      else searching_loop fuel (push_neighbors obs σ1 s)

/-- Initial DFS state (Standard_DFS.py lines 63-73). -/
def init_state : DState :=
  { stack := [s_start], visited := [s_start], CLOSED := [],
    PARENT := dinsert [] s_start s_start,
    g := dinsert [] s_start 0 }

/-- `DFS.searching`. -/
def searching (fuel : ℕ) : Option (List Coord) × List Coord :=
  let σ := searching_loop obs s_goal fuel (init_state s_start)
  (extract_path σ.PARENT s_start s_goal, σ.CLOSED)

/-- The final state of `DFS.searching`. -/
def searching_state (fuel : ℕ) : DState :=
  searching_loop obs s_goal fuel (init_state s_start)

end Engine

end Standard_DFS

/-! ## The terrain overlay generator (Real_Astar.py lines 82-157)

Python draws from the process-wide Mersenne generator, seeded with
`random.seed(42)` in the constructor; we model the seeded generator as an
explicit stream of naturals consumed one draw per `random.choice` call, which
is exactly the determinism content of seeding. -/

/-- A seeded random generator: a stream of draws and a position. -/
structure Rng where
  stream : ℕ → ℕ
  pos : ℕ

/-- `random.choice(seq)`: consume one draw to pick an element (`d` is a
default for the out-of-range case that cannot occur on the non-empty
sequences the generator uses). -/
def Rng.choice {α : Type} (rng : Rng) (l : List α) (d : α) : α × Rng :=
  (l.getD (rng.stream rng.pos % l.length) d, ⟨rng.stream, rng.pos + 1⟩)

/-- Terrain colors, as the Python strings. -/
abbrev Colors : Type := List (Coord × String)

/-- `color_map` (Real_Astar.py line 156). -/
def color_map (c : ℕ) : String :=
  if c = 2 then "red" else if c = 3 then "yellow" else if c = 4 then "blue"
  else "green"

/-- The generator state threaded through the loops. -/
structure TerrainGen where
  terrain_cost : Terrain
  terrain_colors : Colors
  rng : Rng

/-- One `(dx, dy)` step of `_set_surrounding_costs` (Real_Astar.py lines
142-157): on the Manhattan ring of radius `distance`, skip obstacles and the
anchors, draw a multiplier from {2,3,4,5}. -/
def surrounding_step (obs : Obs) (s_start s_goal center : Coord)
    (distance : ℕ) (st : TerrainGen) (d : Coord) : TerrainGen :=
  if |d.1| + |d.2| = (distance : ℤ) then
    let node : Coord := (center.1 + d.1, center.2 + d.2)
    if node ∉ obs ∧ node ≠ s_start ∧ node ≠ s_goal then
      let (c, rng1) := st.rng.choice [2, 3, 4, 5] 2
      { terrain_cost := dinsert st.terrain_cost node c,
        terrain_colors := dinsert st.terrain_colors node (color_map c),
        rng := rng1 }
    else st
  else st

/-- The `dx`/`dy` grid of `_set_surrounding_costs`: `range(-distance,
distance+1)` squared, in source order. -/
def surrounding_offsets (distance : ℕ) : List Coord :=
  ((List.range (2 * distance + 1)).map (fun i => (i : ℤ) - (distance : ℤ))).flatMap
    (fun dx => ((List.range (2 * distance + 1)).map
      (fun j => (dx, (j : ℤ) - (distance : ℤ)))))

/-- `AStar._set_surrounding_costs` (Real_Astar.py lines 134-157). -/
def set_surrounding_costs (obs : Obs) (s_start s_goal center : Coord)
    (distance : ℕ) (st : TerrainGen) : TerrainGen :=
  (surrounding_offsets distance).foldl
    (surrounding_step obs s_start s_goal center distance) st

/-- The sub-rectangle sampled by `_initialize_terrain`:
`x_range = range(8, 43)`. -/
def x_range : List ℤ := (List.range 35).map (fun i => (i : ℤ) + 8)

/-- `y_range = range(3, 28)`. -/
def y_range : List ℤ := (List.range 25).map (fun i => (i : ℤ) + 3)

/-- The tier-placement loop of `_initialize_terrain` (Real_Astar.py lines
115-132): `while placed < count and attempts < 1000`, two draws per attempt,
skipping already-assigned nodes, the anchors and obstacles. -/
def place_tier (obs : Obs) (s_start s_goal : Coord) (cost_value : ℕ)
    (color : String) : ℕ → ℕ → TerrainGen → TerrainGen
  | 0, _, st => st
  | _ + 1, 0, st => st
  | attemptsLeft + 1, placedLeft + 1, st =>
    let (x, rng1) := st.rng.choice x_range 8
    let (y, rng2) := rng1.choice y_range 3
    let node : Coord := (x, y)
    if (dlookup st.terrain_cost node).isNone ∧ node ≠ s_start ∧
        node ≠ s_goal ∧ node ∉ obs then
      place_tier obs s_start s_goal cost_value color attemptsLeft placedLeft
        { terrain_cost := dinsert st.terrain_cost node cost_value,
          terrain_colors := dinsert st.terrain_colors node color,
          rng := rng2 }
    else
      place_tier obs s_start s_goal cost_value color attemptsLeft
        (placedLeft + 1) { st with rng := rng2 }

/-- The tier table of `_initialize_terrain` (Real_Astar.py lines 103-108). -/
def terrain_types : List (ℕ × String × ℕ) :=
  [(2, "red", 40), (3, "yellow", 35), (4, "blue", 25), (5, "green", 30)]

/-- `AStar._initialize_terrain` (Real_Astar.py lines 93-132): the two anchor
rings, then the four placement tiers. -/
def initialize_terrain (rng : Rng) (obs : Obs) (s_start s_goal : Coord) :
    TerrainGen :=
  let st : TerrainGen := { terrain_cost := [], terrain_colors := [], rng := rng }
  let st := set_surrounding_costs obs s_start s_goal s_start 3 st
  let st := set_surrounding_costs obs s_start s_goal s_goal 3 st
  terrain_types.foldl
    (fun st t => place_tier obs s_start s_goal t.1 t.2.1 1000 t.2.2 st) st

/-! # Theorems -/

/-! ## Basic lemmas on the dictionary model and the open container -/

theorem dlookup_dinsert_self {α : Type} (l : List (Coord × α)) (k : Coord) (v : α) :
    dlookup (dinsert l k v) k = some v := by
  simp [dlookup, dinsert]

theorem dlookup_dinsert_ne {α : Type} (l : List (Coord × α)) (k key : Coord) (v : α)
    (h : key ≠ k) : dlookup (dinsert l k v) key = dlookup l key := by
  simp [dlookup, dinsert, h]

theorem dlookup_isSome_mem {α : Type} (l : List (Coord × α)) (key : Coord)
    (v : α) (h : dlookup l key = some v) : (key, v) ∈ l := by
  induction l with
  | nil => simp [dlookup] at h
  | cons kv rest ih =>
    obtain ⟨k, v0⟩ := kv
    by_cases hk : key = k
    · subst hk
      simp [dlookup] at h
      subst h
      exact List.mem_cons_self _ _
    · rw [show dlookup ((k, v0) :: rest) key = dlookup rest key by simp [dlookup, hk]] at h
      exact List.mem_cons_of_mem _ (ih h)

/-- The minimum entry is a member of the candidates. -/
theorem minEntry_mem (e : Entry) (l : List Entry) : minEntry e l ∈ e :: l := by
  induction l generalizing e with
  | nil => simp [minEntry]
  | cons f rest ih =>
    rw [minEntry]
    by_cases hlt : entryLt f e
    · simp only [if_pos hlt]
      rcases List.mem_cons.mp (ih f) with h1 | h1
      · simp [h1]
      · simp [h1]
    · simp only [if_neg hlt]
      rcases List.mem_cons.mp (ih e) with h1 | h1
      · simp [h1]
      · simp [h1]

/-- The minimum entry has minimal priority among the candidates. -/
theorem minEntry_min (e : Entry) (l : List Entry) :
    ∀ f ∈ e :: l, (minEntry e l).1 ≤ f.1 := by
  induction l generalizing e with
  | nil =>
    intro f hf
    simp at hf
    simp [minEntry, hf]
  | cons g rest ih =>
    intro f hf
    rw [minEntry]
    have hbase : (minEntry (if entryLt g e then g else e) rest).1 ≤
        (if entryLt g e then g else e).1 :=
      ih _ _ (List.mem_cons_self _ _)
    rcases List.mem_cons.mp hf with h1 | h1
    · subst h1
      refine le_trans hbase ?_
      split
      case isTrue hlt =>
        rcases hlt with h | h
        · exact le_of_lt h
        · exact le_of_eq h.1
      case isFalse hlt => exact le_refl _
    · rcases List.mem_cons.mp h1 with h2 | h2
      · subst h2
        refine le_trans hbase ?_
        split
        case isTrue hlt => exact le_refl _
        case isFalse hlt =>
          exact le_of_not_lt (fun hc => hlt (Or.inl hc))
      · exact ih _ _ (List.mem_cons_of_mem _ h2)

theorem popMin_some {l : List Entry} {m : Entry} {rest : List Entry}
    (h : popMin l = some (m, rest)) :
    m ∈ l ∧ rest = l.erase m ∧ ∀ f ∈ l, m.1 ≤ f.1 := by
  match l with
  | [] => simp [popMin] at h
  | e :: tail =>
    simp only [popMin] at h
    obtain ⟨h1, h2⟩ := Prod.mk.injEq .. ▸ (Option.some.injEq .. ▸ h)
    subst h1
    exact ⟨minEntry_mem e tail, h2.symm, minEntry_min e tail⟩

/-! ## C1: the diagonal collision rule -/

/-- The two corner cells of a unit diagonal move from `a` to
`b = (a.1 + dx, a.2 + dy)` are `(a.1, b.2)` and `(b.1, a.2)`. -/
theorem is_collision_diagonal (obs : Obs) (a : Coord) (dx dy : ℤ)
    (hdx : dx = 1 ∨ dx = -1) (hdy : dy = 1 ∨ dy = -1) :
    (is_collision obs a (a.1 + dx, a.2 + dy) = true ↔
      (a ∈ obs ∨ (a.1 + dx, a.2 + dy) ∈ obs ∨
       (a.1, a.2 + dy) ∈ obs ∨ (a.1 + dx, a.2) ∈ obs)) := by
  obtain ⟨ax, ay⟩ := a
  rcases hdx with h | h <;> rcases hdy with h2 | h2 <;> subst h <;> subst h2 <;>
    simp only [is_collision, min_def, max_def] <;>
    split_ifs <;> simp_all <;> try omega
  all_goals tauto

/-- C1: amended.  For a unit diagonal move with both endpoints free, the code
blocks the move as soon as *either* (not both) of the two corner cells is an
obstacle: `is_collision` is true exactly when an endpoint or at least one
corner cell `(a.1, b.2)`, `(b.1, a.2)` is in the obstacle set. -/
theorem C1_diagonal_blocked_iff_any_corner (obs : Obs) (a : Coord) (dx dy : ℤ)
    (hdx : dx = 1 ∨ dx = -1) (hdy : dy = 1 ∨ dy = -1) :
    (is_collision obs a (a.1 + dx, a.2 + dy) = true ↔
      (a ∈ obs ∨ (a.1 + dx, a.2 + dy) ∈ obs ∨
       (a.1, a.2 + dy) ∈ obs ∨ (a.1 + dx, a.2) ∈ obs)) :=
  is_collision_diagonal obs a dx dy hdx hdy

/-- C1: counterexample to the claim as stated.  The diagonal move from (0,0)
to (1,1) with obstacle set {(0,1)} has both endpoints free and only one of
its two corner cells blocked, yet the code reports a collision and the edge
cost is +∞ (the claim asserts it is not blocked with finite cost). -/
theorem C1_single_corner_counterexample :
    is_collision [((0:ℤ), (1:ℤ))] (0, 0) (1, 1) = true ∧
    (0, 0) ∉ ([((0:ℤ), (1:ℤ))] : Obs) ∧
    (1, 1) ∉ ([((0:ℤ), (1:ℤ))] : Obs) ∧
    ¬ ((0, 1) ∈ ([((0:ℤ), (1:ℤ))] : Obs) ∧ (1, 0) ∈ ([((0:ℤ), (1:ℤ))] : Obs)) ∧
    Real_Astar.cost [((0:ℤ), (1:ℤ))] [] (0, 0) (1, 1) = ⊤ := by
  refine ⟨by decide, by decide, by decide, by decide, ?_⟩
  simp [Real_Astar.cost, is_collision]

/-- C1: witness for the amended theorem at obs = {(0,1)}, a = (0,0),
dx = dy = 1. -/
theorem C1_witness :
    is_collision [((0:ℤ), (1:ℤ))] ((0:ℤ), (0:ℤ)) ((0:ℤ) + 1, (0:ℤ) + 1) = true ↔
      (((0:ℤ), (0:ℤ)) ∈ ([((0:ℤ), (1:ℤ))] : Obs) ∨
       ((0:ℤ) + 1, (0:ℤ) + 1) ∈ ([((0:ℤ), (1:ℤ))] : Obs) ∨
       ((0:ℤ), (0:ℤ) + 1) ∈ ([((0:ℤ), (1:ℤ))] : Obs) ∨
       ((0:ℤ) + 1, (0:ℤ)) ∈ ([((0:ℤ), (1:ℤ))] : Obs)) :=
  C1_diagonal_blocked_iff_any_corner [((0:ℤ), (1:ℤ))] ((0:ℤ), (0:ℤ)) 1 1
    (Or.inl rfl) (Or.inl rfl)

/-! ## C7: terrain determinism -/

/-- C7: two terrain overlay generations with the identical seeded generator,
anchors, Environment and sub-region (the sub-rectangle is fixed in the code)
produce identical multiplier and color mappings.  The seeded `random`
generator is modelled as an explicit draw stream, which is exactly what
seeding guarantees. -/
theorem C7_terrain_deterministic (r1 r2 : Rng) (obs1 obs2 : Obs)
    (s1 s2 g1 g2 : Coord) (hr : r1 = r2) (ho : obs1 = obs2) (hs : s1 = s2)
    (hg : g1 = g2) :
    (initialize_terrain r1 obs1 s1 g1).terrain_cost =
      (initialize_terrain r2 obs2 s2 g2).terrain_cost ∧
    (initialize_terrain r1 obs1 s1 g1).terrain_colors =
      (initialize_terrain r2 obs2 s2 g2).terrain_colors := by
  subst hr
  subst ho
  subst hs
  subst hg
  exact ⟨rfl, rfl⟩

/-- C7: witness at a concrete generator, empty Environment and the demo
anchors. -/
theorem C7_witness :
    (initialize_terrain ⟨fun n => n, 0⟩ [] (5, 5) (45, 25)).terrain_cost =
      (initialize_terrain ⟨fun n => n, 0⟩ [] (5, 5) (45, 25)).terrain_cost ∧
    (initialize_terrain ⟨fun n => n, 0⟩ [] (5, 5) (45, 25)).terrain_colors =
      (initialize_terrain ⟨fun n => n, 0⟩ [] (5, 5) (45, 25)).terrain_colors :=
  C7_terrain_deterministic ⟨fun n => n, 0⟩ ⟨fun n => n, 0⟩ [] [] (5, 5) (5, 5)
    (45, 25) (45, 25) rfl rfl rfl rfl

/-! ## C10: the DFS trace has no duplicates -/

theorem dropLast_append_of_getLast {α : Type} {l : List α} {x : α}
    (h : l.getLast? = some x) : l.dropLast ++ [x] = l := by
  induction l with
  | nil => simp at h
  | cons b t ih =>
    cases t with
    | nil =>
      simp only [List.getLast?_singleton, Option.some.injEq] at h
      simp [h]
    | cons c u =>
      rw [List.getLast?_cons_cons] at h
      simpa using ih h

/-- The DFS loop invariant: the trace and the stack are jointly duplicate
free, and everything in them has been marked visited. -/
def DfsInv (σ : Standard_DFS.DState) : Prop :=
  (σ.CLOSED ++ σ.stack).Nodup ∧ ∀ x ∈ σ.CLOSED ++ σ.stack, x ∈ σ.visited

theorem dfs_push_neighbor_inv (obs : Obs) (σ : Standard_DFS.DState)
    (s s_n : Coord) (h : DfsInv σ) :
    DfsInv (Standard_DFS.push_neighbor obs σ s s_n) := by
  by_cases hc : s_n ∉ σ.visited ∧ ¬ (is_collision obs s s_n = true)
  · have hres : Standard_DFS.push_neighbor obs σ s s_n =
        { σ with visited := s_n :: σ.visited,
                 PARENT := dinsert σ.PARENT s_n s,
                 g := dinsert σ.g s_n ((dlookup σ.g s).getD ⊤ + ((1 : Q2) : WithTop Q2)),
                 stack := σ.stack ++ [s_n] } := by
      unfold Standard_DFS.push_neighbor
      rw [if_pos hc]
    rw [hres]
    obtain ⟨hnd, hvis⟩ := h
    have hperm : (σ.CLOSED ++ (σ.stack ++ [s_n])).Perm
        (s_n :: (σ.CLOSED ++ σ.stack)) := by
      have h1 : σ.CLOSED ++ (σ.stack ++ [s_n]) = (σ.CLOSED ++ σ.stack) ++ [s_n] := by
        simp
      rw [h1]
      exact List.perm_append_singleton _ _
    constructor
    · show (σ.CLOSED ++ (σ.stack ++ [s_n])).Nodup
      refine hperm.nodup_iff.mpr (List.nodup_cons.mpr ⟨?_, hnd⟩)
      intro hmem
      exact hc.1 (hvis _ hmem)
    · intro x hx
      show x ∈ s_n :: σ.visited
      have hx2 := hperm.mem_iff.mp hx
      rcases List.mem_cons.mp hx2 with h1 | h1
      · simp [h1]
      · exact List.mem_cons_of_mem _ (hvis x h1)
  · have hres : Standard_DFS.push_neighbor obs σ s s_n = σ := by
      unfold Standard_DFS.push_neighbor
      rw [if_neg hc]
    rw [hres]
    exact h

theorem dfs_push_neighbors_inv (obs : Obs) (σ : Standard_DFS.DState)
    (s : Coord) (h : DfsInv σ) :
    DfsInv (Standard_DFS.push_neighbors obs σ s) := by
  unfold Standard_DFS.push_neighbors
  generalize get_neighbor u_set4 s = l
  induction l generalizing σ with
  | nil => exact h
  | cons a t ih => exact ih _ (dfs_push_neighbor_inv obs σ s a h)

theorem dfs_loop_inv (obs : Obs) (s_goal : Coord) (fuel : ℕ)
    (σ : Standard_DFS.DState) (h : DfsInv σ) :
    DfsInv (Standard_DFS.searching_loop obs s_goal fuel σ) := by
  induction fuel generalizing σ with
  | zero => exact h
  | succ fuel ih =>
    rw [Standard_DFS.searching_loop]
    cases hl : σ.stack.getLast? with
    | none => exact h
    | some s =>
      simp only
      have hstack := dropLast_append_of_getLast hl
      have hperm : ((σ.CLOSED ++ [s]) ++ σ.stack.dropLast).Perm
          (σ.CLOSED ++ σ.stack) := by
        have e1 : (σ.CLOSED ++ [s]) ++ σ.stack.dropLast =
            σ.CLOSED ++ ([s] ++ σ.stack.dropLast) := by simp
        rw [e1]
        refine List.Perm.append_left σ.CLOSED ?_
        have h2 : ([s] ++ σ.stack.dropLast).Perm (σ.stack.dropLast ++ [s]) :=
          List.perm_append_comm
        rw [hstack] at h2
        exact h2
      have h1 : DfsInv
          { σ with stack := σ.stack.dropLast, CLOSED := σ.CLOSED ++ [s] } := by
        constructor
        · show ((σ.CLOSED ++ [s]) ++ σ.stack.dropLast).Nodup
          exact hperm.nodup_iff.mpr h.1
        · intro x hx
          exact h.2 x (hperm.mem_iff.mp hx)
      by_cases hgoal : s = s_goal
      · rw [if_pos hgoal]
        exact h1
      · rw [if_neg hgoal]
        exact ih _ (dfs_push_neighbors_inv obs _ s h1)

/-- C10: in every depth-first run (the visited set is updated at push time
and the start is marked before the loop, so each coordinate is pushed at most
once) the returned closed visitation trace has no duplicate coordinates. -/
theorem C10_dfs_closed_nodup (obs : Obs) (s_start s_goal : Coord) (fuel : ℕ) :
    ((Standard_DFS.searching obs s_start s_goal fuel).2).Nodup := by
  have hinit : DfsInv (Standard_DFS.init_state s_start) := by
    constructor
    · simp [Standard_DFS.init_state]
    · intro x hx
      simp [Standard_DFS.init_state] at hx ⊢
      simpa using hx
  have h := dfs_loop_inv obs s_goal fuel _ hinit
  exact (List.nodup_append.mp h.1).1

/-! ## C2: stale entries are not discarded -/

theorem astar_relax_CLOSED (obs : Obs) (terrain : Terrain) (w : Q2)
    (hfun : Coord → Q2) (σ : AState) (s s_n : Coord) :
    (Real_Astar.relax obs terrain w hfun σ s s_n).CLOSED = σ.CLOSED := by
  unfold Real_Astar.relax
  dsimp only
  split <;> split <;> rfl

theorem astar_relaxAll_CLOSED (obs : Obs) (terrain : Terrain)
    (uset : List Coord) (w : Q2) (hfun : Coord → Q2) (σ : AState) (s : Coord) :
    (Real_Astar.relaxAll obs terrain uset w hfun σ s).CLOSED = σ.CLOSED := by
  unfold Real_Astar.relaxAll
  generalize get_neighbor uset s = l
  induction l generalizing σ with
  | nil => rfl
  | cons a t ih =>
    simp only [List.foldl_cons]
    rw [ih, astar_relax_CLOSED]

theorem astar_loop_CLOSED_extends (obs : Obs) (terrain : Terrain)
    (uset : List Coord) (w : Q2) (hfun : Coord → Q2) (s_goal : Coord)
    (fuel : ℕ) (σ : AState) :
    ∃ tail, (Real_Astar.searching_loop obs terrain uset w hfun s_goal fuel σ).CLOSED =
      σ.CLOSED ++ tail := by
  induction fuel generalizing σ with
  | zero => exact ⟨[], by simp [Real_Astar.searching_loop]⟩
  | succ fuel ih =>
    rw [Real_Astar.searching_loop]
    cases hpop : popMin σ.OPEN with
    | none => exact ⟨[], by simp⟩
    | some er =>
      obtain ⟨e, rest⟩ := er
      simp only
      by_cases hg : e.2 = s_goal
      · rw [if_pos hg]
        exact ⟨[e.2], rfl⟩
      · rw [if_neg hg]
        obtain ⟨tail, htail⟩ := ih
          (Real_Astar.relaxAll obs terrain uset w hfun
            { σ with OPEN := rest, CLOSED := σ.CLOSED ++ [e.2] } e.2)
        refine ⟨e.2 :: tail, ?_⟩
        rw [htail, astar_relaxAll_CLOSED]
        simp

theorem dijkstra_relax_CLOSED (obs : Obs) (terrain : Terrain) (σ : AState)
    (s s_n : Coord) :
    (Standard_Dijkstra.relax obs terrain σ s s_n).CLOSED = σ.CLOSED := by
  unfold Standard_Dijkstra.relax
  dsimp only
  split <;> split <;> rfl

theorem dijkstra_relaxAll_CLOSED (obs : Obs) (terrain : Terrain) (σ : AState)
    (s : Coord) :
    (Standard_Dijkstra.relaxAll obs terrain σ s).CLOSED = σ.CLOSED := by
  unfold Standard_Dijkstra.relaxAll
  generalize get_neighbor u_set4 s = l
  induction l generalizing σ with
  | nil => rfl
  | cons a t ih =>
    simp only [List.foldl_cons]
    rw [ih, dijkstra_relax_CLOSED]

theorem bfs_relax_CLOSED (obs : Obs) (σ : AState) (s s_n : Coord) :
    (Standard_BFS.relax obs σ s s_n).CLOSED = σ.CLOSED := by
  unfold Standard_BFS.relax
  dsimp only
  split <;> split <;> rfl

theorem bfs_relaxAll_CLOSED (obs : Obs) (σ : AState) (s : Coord) :
    (Standard_BFS.relaxAll obs σ s).CLOSED = σ.CLOSED := by
  unfold Standard_BFS.relaxAll
  generalize get_neighbor u_set4 s = l
  induction l generalizing σ with
  | nil => rfl
  | cons a t ih =>
    simp only [List.foldl_cons]
    rw [ih, bfs_relax_CLOSED]

theorem dijkstra_loop_CLOSED_extends (obs : Obs) (terrain : Terrain)
    (s_goal : Coord) (fuel : ℕ) (σ : AState) :
    ∃ tail, (Standard_Dijkstra.searching_loop obs terrain s_goal fuel σ).CLOSED =
      σ.CLOSED ++ tail := by
  induction fuel generalizing σ with
  | zero => exact ⟨[], by simp [Standard_Dijkstra.searching_loop]⟩
  | succ fuel ih =>
    rw [Standard_Dijkstra.searching_loop]
    cases hpop : popMin σ.OPEN with
    | none => exact ⟨[], by simp⟩
    | some er =>
      obtain ⟨e, rest⟩ := er
      simp only
      by_cases hg : e.2 = s_goal
      · rw [if_pos hg]
        exact ⟨[e.2], rfl⟩
      · rw [if_neg hg]
        obtain ⟨tail, htail⟩ := ih
          (Standard_Dijkstra.relaxAll obs terrain
            { σ with OPEN := rest, CLOSED := σ.CLOSED ++ [e.2] } e.2)
        refine ⟨e.2 :: tail, ?_⟩
        rw [htail, dijkstra_relaxAll_CLOSED]
        simp

theorem bfs_loop_CLOSED_extends (obs : Obs) (s_goal : Coord) (fuel : ℕ)
    (σ : AState) :
    ∃ tail, (Standard_BFS.searching_loop obs s_goal fuel σ).CLOSED =
      σ.CLOSED ++ tail := by
  induction fuel generalizing σ with
  | zero => exact ⟨[], by simp [Standard_BFS.searching_loop]⟩
  | succ fuel ih =>
    rw [Standard_BFS.searching_loop]
    cases hpop : heappop σ.OPEN with
    | none => exact ⟨[], by simp⟩
    | some er =>
      obtain ⟨e, rest⟩ := er
      simp only
      by_cases hg : e.2 = s_goal
      · rw [if_pos hg]
        exact ⟨[e.2], rfl⟩
      · rw [if_neg hg]
        obtain ⟨tail, htail⟩ := ih
          (Standard_BFS.relaxAll obs
            { σ with OPEN := rest, CLOSED := σ.CLOSED ++ [e.2] } e.2)
        refine ⟨e.2 :: tail, ?_⟩
        rw [htail, bfs_relaxAll_CLOSED]
        simp

/-- C2: amended.  In all three priority-driven engines a popped entry is
appended to the closed trace unconditionally — there is no stale-entry check,
so (as the counterexample run shows) a coordinate can appear more than once in
the closed sequence. -/
theorem C2_popped_entry_always_appended :
    (∀ (obs : Obs) (terrain : Terrain) (uset : List Coord) (w : Q2)
        (hfun : Coord → Q2) (s_goal : Coord) (fuel : ℕ) (σ : AState)
        (e : Entry) (rest : List Entry), popMin σ.OPEN = some (e, rest) →
      ∃ tail, (Real_Astar.searching_loop obs terrain uset w hfun s_goal
          (fuel + 1) σ).CLOSED = σ.CLOSED ++ e.2 :: tail) ∧
    (∀ (obs : Obs) (terrain : Terrain) (s_goal : Coord) (fuel : ℕ)
        (σ : AState) (e : Entry) (rest : List Entry),
        popMin σ.OPEN = some (e, rest) →
      ∃ tail, (Standard_Dijkstra.searching_loop obs terrain s_goal
          (fuel + 1) σ).CLOSED = σ.CLOSED ++ e.2 :: tail) ∧
    (∀ (obs : Obs) (s_goal : Coord) (fuel : ℕ) (σ : AState) (e : Entry)
        (rest : List Entry), heappop σ.OPEN = some (e, rest) →
      ∃ tail, (Standard_BFS.searching_loop obs s_goal
          (fuel + 1) σ).CLOSED = σ.CLOSED ++ e.2 :: tail) := by
  refine ⟨?_, ?_, ?_⟩
  · intro obs terrain uset w hfun s_goal fuel σ e rest hpop
    rw [Real_Astar.searching_loop, hpop]
    simp only
    by_cases hg : e.2 = s_goal
    · rw [if_pos hg]
      exact ⟨[], by simp⟩
    · rw [if_neg hg]
      obtain ⟨tail, htail⟩ := astar_loop_CLOSED_extends obs terrain uset w hfun
        s_goal fuel (Real_Astar.relaxAll obs terrain uset w hfun
          { σ with OPEN := rest, CLOSED := σ.CLOSED ++ [e.2] } e.2)
      refine ⟨tail, ?_⟩
      rw [htail, astar_relaxAll_CLOSED]
      simp
  · intro obs terrain s_goal fuel σ e rest hpop
    rw [Standard_Dijkstra.searching_loop, hpop]
    simp only
    by_cases hg : e.2 = s_goal
    · rw [if_pos hg]
      exact ⟨[], by simp⟩
    · rw [if_neg hg]
      obtain ⟨tail, htail⟩ := dijkstra_loop_CLOSED_extends obs terrain
        s_goal fuel (Standard_Dijkstra.relaxAll obs terrain
          { σ with OPEN := rest, CLOSED := σ.CLOSED ++ [e.2] } e.2)
      refine ⟨tail, ?_⟩
      rw [htail, dijkstra_relaxAll_CLOSED]
      simp
  · intro obs s_goal fuel σ e rest hpop
    rw [Standard_BFS.searching_loop, hpop]
    simp only
    by_cases hg : e.2 = s_goal
    · rw [if_pos hg]
      exact ⟨[], by simp⟩
    · rw [if_neg hg]
      obtain ⟨tail, htail⟩ := bfs_loop_CLOSED_extends obs
        s_goal fuel (Standard_BFS.relaxAll obs
          { σ with OPEN := rest, CLOSED := σ.CLOSED ++ [e.2] } e.2)
      refine ⟨tail, ?_⟩
      rw [htail, bfs_relaxAll_CLOSED]
      simp

/-- Obstacle set of the C2 counterexample run: interior obstacles (0,0),
(1,2), (3,2) in a 4×3 arena enclosed by a wall ring. -/
def obsC2 : Obs :=
  [(0, 0), (1, 2), (3, 2),
   (-1, -1), (0, -1), (1, -1), (2, -1), (3, -1), (4, -1),
   (-1, 3), (0, 3), (1, 3), (2, 3), (3, 3), (4, 3),
   (-1, 0), (-1, 1), (-1, 2), (4, 0), (4, 1), (4, 2)]

/-- Terrain overlay of the C2 counterexample run. -/
def terC2 : Terrain := [((0, 2), 4), ((1, 1), 4), ((2, 0), 3), ((3, 0), 5)]

/-- C2: counterexample to the claim as stated.  The weighted-A* run (weight
2, Manhattan heuristic) from (1,1) to (3,0) on `obsC2`/`terC2` pops a stale
duplicate of (2,0) and appends it to the closed trace a second time, so a
coordinate appears twice in the closed sequence. -/
theorem C2_stale_entry_counterexample :
    (Real_Astar.searching obsC2 terC2 u_set8 2 (manhattan (3, 0))
        (1, 1) (3, 0) 20).2 =
      [(1, 1), (1, 0), (2, 1), (3, 1), (2, 0), (2, 0), (3, 0)] ∧
    ¬ ((Real_Astar.searching obsC2 terC2 u_set8 2 (manhattan (3, 0))
        (1, 1) (3, 0) 20).2).Nodup := by
  refine ⟨by decide, by decide⟩

/-- C2: witness for the amended theorem, at the three engines' initial
states (start (0,0), goal (1,1), empty Environment, weight 0). -/
theorem C2_witness :
    (∃ tail, (Real_Astar.searching_loop [] [] u_set8 0 (manhattan (1, 1))
        (1, 1) (0 + 1) (Real_Astar.init_state 0 (manhattan (1, 1))
          (0, 0) (1, 1))).CLOSED =
      (Real_Astar.init_state 0 (manhattan (1, 1)) (0, 0) (1, 1)).CLOSED ++
        ((0 : ℤ), (0 : ℤ)) :: tail) ∧
    (∃ tail, (Standard_Dijkstra.searching_loop [] [] (1, 1) (0 + 1)
        (Standard_Dijkstra.init_state (0, 0) (1, 1))).CLOSED =
      (Standard_Dijkstra.init_state (0, 0) (1, 1)).CLOSED ++
        ((0 : ℤ), (0 : ℤ)) :: tail) ∧
    (∃ tail, (Standard_BFS.searching_loop [] (1, 1) (0 + 1)
        (Standard_BFS.init_state (0, 0) (1, 1))).CLOSED =
      (Standard_BFS.init_state (0, 0) (1, 1)).CLOSED ++
        ((0 : ℤ), (0 : ℤ)) :: tail) :=
  ⟨C2_popped_entry_always_appended.1 [] [] u_set8 0 (manhattan (1, 1)) (1, 1) 0
      (Real_Astar.init_state 0 (manhattan (1, 1)) (0, 0) (1, 1))
      (((0 : Q2) : WithTop Q2) + (((0 : Q2) * manhattan (1, 1) (0, 0) : Q2) : WithTop Q2), ((0 : ℤ), (0 : ℤ))) []
      (by decide),
   C2_popped_entry_always_appended.2.1 [] [] (1, 1) 0
      (Standard_Dijkstra.init_state (0, 0) (1, 1))
      (((0 : Q2) : WithTop Q2), ((0 : ℤ), (0 : ℤ))) [] (by decide),
   C2_popped_entry_always_appended.2.2 [] (1, 1) 0
      (Standard_BFS.init_state (0, 0) (1, 1))
      (((0 : Q2) : WithTop Q2), ((0 : ℤ), (0 : ℤ))) [] (by decide)⟩

/-! ## C6: the BFS priority trick does not implement FIFO layering -/

/-- C6: the code's own comment says pushing with priority `OPEN[-1][0] + 1`
"ensures FIFO behaviour", but `OPEN[-1]` is the last slot of the heap array,
not its maximum.  On the obstacle-free grid from (0,0) to (1,1) the closed
trace finalizes (0,2) — Manhattan distance 2, with final g = 2 — before
(1,0) — distance 1, g = 1: the g sequence along `closed` decreases and the
distance-k layer order is violated. -/
theorem C6_bfs_layering_violated :
    (Standard_BFS.searching [] (0, 0) (1, 1) 30).2 =
      [(0, 0), (0, 1), (0, -1), (-1, 0), (0, 2), (1, 0), (-1, 1), (0, -2), (1, 1)] ∧
    gval (Standard_BFS.searching_state [] (0, 0) (1, 1) 30) (0, 2) =
      (((2 : Q2)) : WithTop Q2) ∧
    gval (Standard_BFS.searching_state [] (0, 0) (1, 1) 30) (1, 0) =
      (((1 : Q2)) : WithTop Q2) ∧
    (|(0 : ℤ) - 0| + |(2 : ℤ) - 0| = 2 ∧ |(1 : ℤ) - 0| + |(0 : ℤ) - 0| = 1) := by
  refine ⟨by decide, by decide, by decide, by decide⟩

/-! ## C3: exhaustion does not produce a structured result -/

/-- If the goal ever has a parent entry, it has an open entry or has been
finalized; contrapositive at exhaustion: no parent entry for the goal. -/
def GoalTracked (s_goal : Coord) (σ : AState) : Prop :=
  dlookup σ.PARENT s_goal ≠ none →
    (∃ e ∈ σ.OPEN, e.2 = s_goal) ∨ s_goal ∈ σ.CLOSED

theorem astar_relax_goalTracked (obs : Obs) (terrain : Terrain) (w : Q2)
    (hfun : Coord → Q2) (σ : AState) (s s_n s_goal : Coord)
    (h : GoalTracked s_goal σ) :
    GoalTracked s_goal (Real_Astar.relax obs terrain w hfun σ s s_n) := by
  unfold Real_Astar.relax
  dsimp only
  split <;> split
  all_goals
    first
      | exact h
      | (intro hdom
         dsimp only at hdom
         by_cases hg : s_goal = s_n
         · subst hg
           exact Or.inl ⟨_, List.mem_cons_self _ _, rfl⟩
         · rw [dlookup_dinsert_ne _ _ _ _ hg] at hdom
           rcases h hdom with ⟨e, he, he2⟩ | hcl
           · exact Or.inl ⟨e, List.mem_cons_of_mem _ he, he2⟩
           · exact Or.inr hcl)

theorem astar_relaxAll_goalTracked (obs : Obs) (terrain : Terrain)
    (uset : List Coord) (w : Q2) (hfun : Coord → Q2) (σ : AState)
    (s s_goal : Coord) (h : GoalTracked s_goal σ) :
    GoalTracked s_goal (Real_Astar.relaxAll obs terrain uset w hfun σ s) := by
  unfold Real_Astar.relaxAll
  generalize get_neighbor uset s = l
  induction l generalizing σ with
  | nil => exact h
  | cons a t ih =>
    exact ih _ (astar_relax_goalTracked obs terrain w hfun σ s a s_goal h)

theorem astar_loop_goalTracked (obs : Obs) (terrain : Terrain)
    (uset : List Coord) (w : Q2) (hfun : Coord → Q2) (s_goal : Coord)
    (fuel : ℕ) (σ : AState) (h : GoalTracked s_goal σ) :
    GoalTracked s_goal
      (Real_Astar.searching_loop obs terrain uset w hfun s_goal fuel σ) := by
  induction fuel generalizing σ with
  | zero => exact h
  | succ fuel ih =>
    rw [Real_Astar.searching_loop]
    cases hpop : popMin σ.OPEN with
    | none => exact h
    | some er =>
      obtain ⟨m, rest⟩ := er
      obtain ⟨hmem, hrest, hmin⟩ := popMin_some hpop
      simp only
      have h1 : GoalTracked s_goal
          { σ with OPEN := rest, CLOSED := σ.CLOSED ++ [m.2] } := by
        intro hdom
        rcases h hdom with ⟨e, he, he2⟩ | hcl
        · by_cases hgm : m.2 = s_goal
          · exact Or.inr (List.mem_append.mpr (Or.inr (by simp [hgm])))
          · have hne : e ≠ m := by
              intro hc
              exact hgm (hc ▸ he2)
            refine Or.inl ⟨e, ?_, he2⟩
            show e ∈ rest
            rw [hrest]
            exact (List.mem_erase_of_ne hne).mpr he
        · exact Or.inr (List.mem_append.mpr (Or.inl hcl))
      by_cases hg : m.2 = s_goal
      · rw [if_pos hg]
        exact h1
      · rw [if_neg hg]
        exact ih _ (astar_relaxAll_goalTracked obs terrain uset w hfun _ _ _ h1)

theorem extract_path_of_no_parent (PARENT : List (Coord × Coord))
    (s_start s_goal : Coord) (h : dlookup PARENT s_goal = none) :
    extract_path PARENT s_start s_goal = none := by
  unfold extract_path extract_path_aux
  rw [h]

/-- C3: amended.  When the open container empties before the goal is
finalized (start ≠ goal), the goal never received a parent entry, so the
Python code raises `KeyError` inside `extract_path` instead of returning a
structured exhausted result; in the embedding the returned path is `none`
(the closed trace and `g` map are only reachable through the state, not
through a normal return). -/
theorem C3_exhausted_path_extraction_fails (obs : Obs) (terrain : Terrain)
    (uset : List Coord) (w : Q2) (hfun : Coord → Q2) (s_start s_goal : Coord)
    (fuel : ℕ) (hne : s_goal ≠ s_start)
    (hopen : (Real_Astar.searching_state obs terrain uset w hfun s_start
        s_goal fuel).OPEN = [])
    (hclosed : s_goal ∉ (Real_Astar.searching_state obs terrain uset w hfun
        s_start s_goal fuel).CLOSED) :
    (Real_Astar.searching obs terrain uset w hfun s_start s_goal fuel).1 =
      none := by
  have hinit : GoalTracked s_goal
      (Real_Astar.init_state w hfun s_start s_goal) := by
    intro hdom
    exfalso
    apply hdom
    show dlookup (dinsert [] s_start s_start) s_goal = none
    rw [dlookup_dinsert_ne _ _ _ _ hne]
    rfl
  have hfinal := astar_loop_goalTracked obs terrain uset w hfun s_goal fuel
    (Real_Astar.init_state w hfun s_start s_goal) hinit
  show extract_path (Real_Astar.searching_state obs terrain uset w hfun
      s_start s_goal fuel).PARENT s_start s_goal = none
  apply extract_path_of_no_parent
  by_contra hdom
  rcases hfinal hdom with ⟨e, he, _⟩ | hcl
  · rw [show (Real_Astar.searching_loop obs terrain uset w hfun s_goal fuel
        (Real_Astar.init_state w hfun s_start s_goal)).OPEN = [] from hopen] at he
    exact absurd he (List.not_mem_nil e)
  · exact hclosed hcl

/-- The obstacle ring fully enclosing the start (0,0) for the C3
counterexample. -/
def obsC3 : Obs :=
  [(1, 0), (-1, 0), (0, 1), (0, -1), (1, 1), (1, -1), (-1, 1), (-1, -1)]

/-- C3: counterexample to the claim as stated.  With the start enclosed by
obstacles and goal (5,5), the open container empties after one pop, and the
search does not return a structured exhausted result: path extraction fails
(Python: `KeyError` in `extract_path`; embedding: path `none`). -/
theorem C3_unreachable_counterexample :
    (Real_Astar.searching obsC3 [] u_set8 1 (manhattan (5, 5))
        (0, 0) (5, 5) 5).1 = none ∧
    (Real_Astar.searching obsC3 [] u_set8 1 (manhattan (5, 5))
        (0, 0) (5, 5) 5).2 = [(0, 0)] ∧
    (Real_Astar.searching_state obsC3 [] u_set8 1 (manhattan (5, 5))
        (0, 0) (5, 5) 5).OPEN = [] := by
  refine ⟨by decide, by decide, by decide⟩

/-- C3: witness for the amended theorem at the enclosed-start input. -/
theorem C3_witness :
    (Real_Astar.searching obsC3 [] u_set8 1 (manhattan (5, 5))
        (0, 0) (5, 5) 5).1 = none :=
  C3_exhausted_path_extraction_fails obsC3 [] u_set8 1 (manhattan (5, 5))
    (0, 0) (5, 5) 5 (by decide) (by decide) (by decide)

/-! ## C5: Dijkstra equals the weighted-A* engine at weight 0, 4-directional -/

theorem cost_orthogonal_eq (obs : Obs) (terrain : Terrain) (s : Coord) :
    ∀ s_n ∈ get_neighbor u_set4 s,
      Real_Astar.cost obs terrain s s_n = Standard_Dijkstra.cost obs terrain s s_n := by
  intro s_n hmem
  have hbase : hypotBase s s_n = 1 := by
    simp only [get_neighbor, u_set4, List.map_cons, List.map_nil,
      List.mem_cons, List.not_mem_nil, or_false] at hmem
    rcases hmem with h | h | h | h <;> subst h <;>
      · unfold hypotBase
        rw [if_neg (by omega), if_neg (by omega)]
  unfold Real_Astar.cost Standard_Dijkstra.cost
  by_cases hc : is_collision obs s s_n
  · rw [if_pos hc, if_pos hc]
  · rw [if_neg hc, if_neg hc, hbase, one_mul]

theorem relax_weight0_eq (obs : Obs) (terrain : Terrain) (hfun : Coord → Q2)
    (σ : AState) (s : Coord) :
    ∀ s_n ∈ get_neighbor u_set4 s,
      Real_Astar.relax obs terrain 0 hfun σ s s_n =
        Standard_Dijkstra.relax obs terrain σ s s_n := by
  intro s_n hmem
  unfold Real_Astar.relax Standard_Dijkstra.relax
  rw [cost_orthogonal_eq obs terrain s s_n hmem]
  dsimp only
  split <;> split
  all_goals try rfl
  all_goals
    · show AState.mk _ _ _ _ = AState.mk _ _ _ _
      congr 1
      unfold Real_Astar.f_value gval
      dsimp only
      rw [dlookup_dinsert_self, zero_mul]
      simp

theorem relaxAll_weight0_eq (obs : Obs) (terrain : Terrain)
    (hfun : Coord → Q2) (σ : AState) (s : Coord) :
    Real_Astar.relaxAll obs terrain u_set4 0 hfun σ s =
      Standard_Dijkstra.relaxAll obs terrain σ s := by
  unfold Real_Astar.relaxAll Standard_Dijkstra.relaxAll
  have hstep := relax_weight0_eq obs terrain hfun
  generalize hl : get_neighbor u_set4 s = l
  have hmem : ∀ x ∈ l, x ∈ get_neighbor u_set4 s := by
    intro x hx
    rw [hl]
    exact hx
  clear hl
  induction l generalizing σ with
  | nil => rfl
  | cons a t ih =>
    simp only [List.foldl_cons]
    rw [hstep σ s a (hmem a (List.mem_cons_self _ _))]
    exact ih _ (fun x hx => hmem x (List.mem_cons_of_mem _ hx))

theorem loop_weight0_eq (obs : Obs) (terrain : Terrain) (hfun : Coord → Q2)
    (s_goal : Coord) (fuel : ℕ) (σ : AState) :
    Real_Astar.searching_loop obs terrain u_set4 0 hfun s_goal fuel σ =
      Standard_Dijkstra.searching_loop obs terrain s_goal fuel σ := by
  induction fuel generalizing σ with
  | zero => rfl
  | succ fuel ih =>
    rw [Real_Astar.searching_loop, Standard_Dijkstra.searching_loop]
    cases hpop : popMin σ.OPEN with
    | none => rfl
    | some er =>
      obtain ⟨m, rest⟩ := er
      simp only
      by_cases hg : m.2 = s_goal
      · rw [if_pos hg, if_pos hg]
      · rw [if_neg hg, if_neg hg, relaxAll_weight0_eq obs terrain hfun _ m.2]
        exact ih _

theorem popMin_singleton (e : Entry) : popMin [e] = some (e, []) := by
  show some (minEntry e [], [e].erase (minEntry e [])) = some (e, [])
  show some (e, [e].erase e) = some (e, [])
  rw [List.erase_cons_head]

theorem astar_loop_pop_goal_first (obs : Obs) (terrain : Terrain)
    (uset : List Coord) (w : Q2) (hfun : Coord → Q2) (s_goal : Coord)
    (fuel : ℕ) (σ : AState) (e : Entry) (hopen : σ.OPEN = [e])
    (hg : e.2 = s_goal) :
    Real_Astar.searching_loop obs terrain uset w hfun s_goal (fuel + 1) σ =
      { σ with OPEN := [], CLOSED := σ.CLOSED ++ [e.2] } := by
  rw [Real_Astar.searching_loop, hopen, popMin_singleton]
  simp only
  rw [if_pos hg]

theorem dijkstra_loop_pop_goal_first (obs : Obs) (terrain : Terrain)
    (s_goal : Coord) (fuel : ℕ) (σ : AState) (e : Entry)
    (hopen : σ.OPEN = [e]) (hg : e.2 = s_goal) :
    Standard_Dijkstra.searching_loop obs terrain s_goal (fuel + 1) σ =
      { σ with OPEN := [], CLOSED := σ.CLOSED ++ [e.2] } := by
  rw [Standard_Dijkstra.searching_loop, hopen, popMin_singleton]
  simp only
  rw [if_pos hg]

/-- C5: running the weighted-A* engine with weight 0 and the 4-directional
move set produces exactly the same returned path and the same closed
finalize-order sequence as the Dijkstra variant (terrain-only cost model) on
the same Environment, terrain overlay, start and goal — for any heuristic
function, since weight 0 cancels it. -/
theorem C5_weight0_astar_equals_dijkstra (obs : Obs) (terrain : Terrain)
    (hfun : Coord → Q2) (s_start s_goal : Coord) (fuel : ℕ) :
    Real_Astar.searching obs terrain u_set4 0 hfun s_start s_goal fuel =
      Standard_Dijkstra.searching obs terrain s_start s_goal fuel := by
  by_cases hsg : s_start = s_goal
  · subst hsg
    cases fuel with
    | zero => rfl
    | succ fuel =>
      unfold Real_Astar.searching Standard_Dijkstra.searching
      dsimp only
      rw [astar_loop_pop_goal_first obs terrain u_set4 0 hfun s_start fuel _ _
          rfl rfl,
        dijkstra_loop_pop_goal_first obs terrain s_start fuel _ _ rfl rfl]
      rfl
  · unfold Real_Astar.searching Standard_Dijkstra.searching
    dsimp only
    have hinit : Real_Astar.init_state 0 hfun s_start s_goal =
        Standard_Dijkstra.init_state s_start s_goal := by
      unfold Real_Astar.init_state Standard_Dijkstra.init_state
      dsimp only
      congr 1
      unfold Real_Astar.f_value gval
      dsimp only
      rw [show dlookup (dinsert (dinsert [] s_start 0) s_goal ⊤) s_start =
          dlookup (dinsert ([] : List (Coord × WithTop Q2)) s_start 0) s_start
            from dlookup_dinsert_ne _ _ _ _ (fun hc => hsg hc), dlookup_dinsert_self]
      rw [zero_mul]
      simp
    rw [hinit, loop_weight0_eq]

/-! ## C9: blocked coordinates are never relaxed -/

theorem is_collision_of_end_mem (obs : Obs) (s e : Coord) (h : e ∈ obs) :
    is_collision obs s e = true := by
  unfold is_collision
  rw [if_pos (Or.inr h)]

theorem astar_cost_of_end_mem (obs : Obs) (terrain : Terrain) (s e : Coord)
    (h : e ∈ obs) : Real_Astar.cost obs terrain s e = ⊤ := by
  unfold Real_Astar.cost
  rw [if_pos (is_collision_of_end_mem obs s e h)]

theorem dijkstra_cost_of_end_mem (obs : Obs) (terrain : Terrain) (s e : Coord)
    (h : e ∈ obs) : Standard_Dijkstra.cost obs terrain s e = ⊤ := by
  unfold Standard_Dijkstra.cost
  rw [if_pos (is_collision_of_end_mem obs s e h)]

theorem bfs_cost_of_end_mem (obs : Obs) (s e : Coord) (h : e ∈ obs) :
    Standard_BFS.cost obs s e = ⊤ := by
  unfold Standard_BFS.cost
  rw [if_pos (is_collision_of_end_mem obs s e h)]

/-- Blocked coordinates other than the start never carry a finite `g` value
and never have a parent entry. -/
def ObsUntouched (obs : Obs) (s_start : Coord) (σ : AState) : Prop :=
  ∀ x ∈ obs, x ≠ s_start →
    (dlookup σ.g x = none ∨ dlookup σ.g x = some ⊤) ∧
    dlookup σ.PARENT x = none

theorem obsUntouched_init (obs : Obs) (s_start s_goal : Coord)
    (w : Q2) (hfun : Coord → Q2) :
    ObsUntouched obs s_start (Real_Astar.init_state w hfun s_start s_goal) ∧
    ObsUntouched obs s_start (Standard_Dijkstra.init_state s_start s_goal) ∧
    ObsUntouched obs s_start (Standard_BFS.init_state s_start s_goal) := by
  have hmain : ∀ x ∈ obs, x ≠ s_start →
      (dlookup (dinsert (dinsert [] s_start (0 : WithTop Q2)) s_goal ⊤) x = none ∨
       dlookup (dinsert (dinsert [] s_start (0 : WithTop Q2)) s_goal ⊤) x = some ⊤) ∧
      dlookup (dinsert ([] : List (Coord × Coord)) s_start s_start) x = none := by
    intro x _ hxs
    constructor
    · by_cases hg : x = s_goal
      · subst hg
        rw [dlookup_dinsert_self]
        exact Or.inr rfl
      · rw [dlookup_dinsert_ne _ _ _ _ hg, dlookup_dinsert_ne _ _ _ _ hxs]
        exact Or.inl rfl
    · rw [dlookup_dinsert_ne _ _ _ _ hxs]
      rfl
  exact ⟨fun x hx hxs => hmain x hx hxs, fun x hx hxs => hmain x hx hxs,
    fun x hx hxs => hmain x hx hxs⟩

theorem astar_relax_obsUntouched (obs : Obs) (terrain : Terrain) (w : Q2)
    (hfun : Coord → Q2) (s_start : Coord) (σ : AState) (s s_n : Coord)
    (h : ObsUntouched obs s_start σ) :
    ObsUntouched obs s_start (Real_Astar.relax obs terrain w hfun σ s s_n) := by
  intro x hx hxs
  by_cases hxn : x = s_n
  · subst hxn
    have hcost : Real_Astar.cost obs terrain s x = ⊤ :=
      astar_cost_of_end_mem obs terrain s x hx
    unfold Real_Astar.relax
    dsimp only
    rw [hcost]
    have hnc : gval σ s + (⊤ : WithTop Q2) = ⊤ := add_top _
    rw [hnc]
    split
    · rw [if_neg (by exact not_top_lt)]
      refine ⟨Or.inr (dlookup_dinsert_self _ _ _), ?_⟩
      exact (h x hx hxs).2
    · rw [if_neg (by exact not_top_lt)]
      exact h x hx hxs
  · unfold Real_Astar.relax
    dsimp only
    split
    · split
      · refine ⟨?_, ?_⟩
        · show dlookup (dinsert (dinsert σ.g s_n ⊤) s_n _) x = none ∨
            dlookup (dinsert (dinsert σ.g s_n ⊤) s_n _) x = some ⊤
          rw [dlookup_dinsert_ne _ _ _ _ hxn, dlookup_dinsert_ne _ _ _ _ hxn]
          exact (h x hx hxs).1
        · show dlookup (dinsert σ.PARENT s_n s) x = none
          rw [dlookup_dinsert_ne _ _ _ _ hxn]
          exact (h x hx hxs).2
      · refine ⟨?_, (h x hx hxs).2⟩
        show dlookup (dinsert σ.g s_n ⊤) x = none ∨
          dlookup (dinsert σ.g s_n ⊤) x = some ⊤
        rw [dlookup_dinsert_ne _ _ _ _ hxn]
        exact (h x hx hxs).1
    · split
      · refine ⟨?_, ?_⟩
        · show dlookup (dinsert σ.g s_n _) x = none ∨
            dlookup (dinsert σ.g s_n _) x = some ⊤
          rw [dlookup_dinsert_ne _ _ _ _ hxn]
          exact (h x hx hxs).1
        · show dlookup (dinsert σ.PARENT s_n s) x = none
          rw [dlookup_dinsert_ne _ _ _ _ hxn]
          exact (h x hx hxs).2
      · exact h x hx hxs

theorem dijkstra_relax_obsUntouched (obs : Obs) (terrain : Terrain)
    (s_start : Coord) (σ : AState) (s s_n : Coord)
    (h : ObsUntouched obs s_start σ) :
    ObsUntouched obs s_start (Standard_Dijkstra.relax obs terrain σ s s_n) := by
  intro x hx hxs
  by_cases hxn : x = s_n
  · subst hxn
    have hcost : Standard_Dijkstra.cost obs terrain s x = ⊤ :=
      dijkstra_cost_of_end_mem obs terrain s x hx
    unfold Standard_Dijkstra.relax
    dsimp only
    rw [hcost]
    have hnc : gval σ s + (⊤ : WithTop Q2) = ⊤ := add_top _
    rw [hnc]
    split
    · rw [if_neg (by exact not_top_lt)]
      refine ⟨Or.inr (dlookup_dinsert_self _ _ _), ?_⟩
      exact (h x hx hxs).2
    · rw [if_neg (by exact not_top_lt)]
      exact h x hx hxs
  · unfold Standard_Dijkstra.relax
    dsimp only
    split
    · split
      · refine ⟨?_, ?_⟩
        · show dlookup (dinsert (dinsert σ.g s_n ⊤) s_n _) x = none ∨
            dlookup (dinsert (dinsert σ.g s_n ⊤) s_n _) x = some ⊤
          rw [dlookup_dinsert_ne _ _ _ _ hxn, dlookup_dinsert_ne _ _ _ _ hxn]
          exact (h x hx hxs).1
        · show dlookup (dinsert σ.PARENT s_n s) x = none
          rw [dlookup_dinsert_ne _ _ _ _ hxn]
          exact (h x hx hxs).2
      · refine ⟨?_, (h x hx hxs).2⟩
        show dlookup (dinsert σ.g s_n ⊤) x = none ∨
          dlookup (dinsert σ.g s_n ⊤) x = some ⊤
        rw [dlookup_dinsert_ne _ _ _ _ hxn]
        exact (h x hx hxs).1
    · split
      · refine ⟨?_, ?_⟩
        · show dlookup (dinsert σ.g s_n _) x = none ∨
            dlookup (dinsert σ.g s_n _) x = some ⊤
          rw [dlookup_dinsert_ne _ _ _ _ hxn]
          exact (h x hx hxs).1
        · show dlookup (dinsert σ.PARENT s_n s) x = none
          rw [dlookup_dinsert_ne _ _ _ _ hxn]
          exact (h x hx hxs).2
      · exact h x hx hxs

theorem bfs_relax_obsUntouched (obs : Obs) (s_start : Coord) (σ : AState)
    (s s_n : Coord) (h : ObsUntouched obs s_start σ) :
    ObsUntouched obs s_start (Standard_BFS.relax obs σ s s_n) := by
  intro x hx hxs
  by_cases hxn : x = s_n
  · subst hxn
    have hcost : Standard_BFS.cost obs s x = ⊤ :=
      bfs_cost_of_end_mem obs s x hx
    unfold Standard_BFS.relax
    dsimp only
    rw [hcost]
    have hnc : gval σ s + (⊤ : WithTop Q2) = ⊤ := add_top _
    rw [hnc]
    split
    · rw [if_neg (by exact not_top_lt)]
      refine ⟨Or.inr (dlookup_dinsert_self _ _ _), ?_⟩
      exact (h x hx hxs).2
    · rw [if_neg (by exact not_top_lt)]
      exact h x hx hxs
  · unfold Standard_BFS.relax
    dsimp only
    split
    · split
      · refine ⟨?_, ?_⟩
        · show dlookup (dinsert (dinsert σ.g s_n ⊤) s_n _) x = none ∨
            dlookup (dinsert (dinsert σ.g s_n ⊤) s_n _) x = some ⊤
          rw [dlookup_dinsert_ne _ _ _ _ hxn, dlookup_dinsert_ne _ _ _ _ hxn]
          exact (h x hx hxs).1
        · show dlookup (dinsert σ.PARENT s_n s) x = none
          rw [dlookup_dinsert_ne _ _ _ _ hxn]
          exact (h x hx hxs).2
      · refine ⟨?_, (h x hx hxs).2⟩
        show dlookup (dinsert σ.g s_n ⊤) x = none ∨
          dlookup (dinsert σ.g s_n ⊤) x = some ⊤
        rw [dlookup_dinsert_ne _ _ _ _ hxn]
        exact (h x hx hxs).1
    · split
      · refine ⟨?_, ?_⟩
        · show dlookup (dinsert σ.g s_n _) x = none ∨
            dlookup (dinsert σ.g s_n _) x = some ⊤
          rw [dlookup_dinsert_ne _ _ _ _ hxn]
          exact (h x hx hxs).1
        · show dlookup (dinsert σ.PARENT s_n s) x = none
          rw [dlookup_dinsert_ne _ _ _ _ hxn]
          exact (h x hx hxs).2
      · exact h x hx hxs

theorem astar_relaxAll_obsUntouched (obs : Obs) (terrain : Terrain)
    (uset : List Coord) (w : Q2) (hfun : Coord → Q2) (s_start : Coord)
    (σ : AState) (s : Coord) (h : ObsUntouched obs s_start σ) :
    ObsUntouched obs s_start
      (Real_Astar.relaxAll obs terrain uset w hfun σ s) := by
  unfold Real_Astar.relaxAll
  generalize get_neighbor uset s = l
  induction l generalizing σ with
  | nil => exact h
  | cons a t ih =>
    exact ih _ (astar_relax_obsUntouched obs terrain w hfun s_start σ s a h)

theorem dijkstra_relaxAll_obsUntouched (obs : Obs) (terrain : Terrain)
    (s_start : Coord) (σ : AState) (s : Coord)
    (h : ObsUntouched obs s_start σ) :
    ObsUntouched obs s_start (Standard_Dijkstra.relaxAll obs terrain σ s) := by
  unfold Standard_Dijkstra.relaxAll
  generalize get_neighbor u_set4 s = l
  induction l generalizing σ with
  | nil => exact h
  | cons a t ih =>
    exact ih _ (dijkstra_relax_obsUntouched obs terrain s_start σ s a h)

theorem bfs_relaxAll_obsUntouched (obs : Obs) (s_start : Coord) (σ : AState)
    (s : Coord) (h : ObsUntouched obs s_start σ) :
    ObsUntouched obs s_start (Standard_BFS.relaxAll obs σ s) := by
  unfold Standard_BFS.relaxAll
  generalize get_neighbor u_set4 s = l
  induction l generalizing σ with
  | nil => exact h
  | cons a t ih =>
    exact ih _ (bfs_relax_obsUntouched obs s_start σ s a h)

theorem astar_loop_obsUntouched (obs : Obs) (terrain : Terrain)
    (uset : List Coord) (w : Q2) (hfun : Coord → Q2) (s_start s_goal : Coord)
    (fuel : ℕ) (σ : AState) (h : ObsUntouched obs s_start σ) :
    ObsUntouched obs s_start
      (Real_Astar.searching_loop obs terrain uset w hfun s_goal fuel σ) := by
  induction fuel generalizing σ with
  | zero => exact h
  | succ fuel ih =>
    rw [Real_Astar.searching_loop]
    cases hpop : popMin σ.OPEN with
    | none => exact h
    | some er =>
      obtain ⟨m, rest⟩ := er
      simp only
      have h1 : ObsUntouched obs s_start
          { σ with OPEN := rest, CLOSED := σ.CLOSED ++ [m.2] } :=
        fun x hx hxs => h x hx hxs
      by_cases hg : m.2 = s_goal
      · rw [if_pos hg]
        exact h1
      · rw [if_neg hg]
        exact ih _ (astar_relaxAll_obsUntouched obs terrain uset w hfun
          s_start _ _ h1)

theorem dijkstra_loop_obsUntouched (obs : Obs) (terrain : Terrain)
    (s_start s_goal : Coord) (fuel : ℕ) (σ : AState)
    (h : ObsUntouched obs s_start σ) :
    ObsUntouched obs s_start
      (Standard_Dijkstra.searching_loop obs terrain s_goal fuel σ) := by
  induction fuel generalizing σ with
  | zero => exact h
  | succ fuel ih =>
    rw [Standard_Dijkstra.searching_loop]
    cases hpop : popMin σ.OPEN with
    | none => exact h
    | some er =>
      obtain ⟨m, rest⟩ := er
      simp only
      have h1 : ObsUntouched obs s_start
          { σ with OPEN := rest, CLOSED := σ.CLOSED ++ [m.2] } :=
        fun x hx hxs => h x hx hxs
      by_cases hg : m.2 = s_goal
      · rw [if_pos hg]
        exact h1
      · rw [if_neg hg]
        exact ih _ (dijkstra_relaxAll_obsUntouched obs terrain s_start _ _ h1)

theorem bfs_loop_obsUntouched (obs : Obs) (s_start s_goal : Coord) (fuel : ℕ)
    (σ : AState) (h : ObsUntouched obs s_start σ) :
    ObsUntouched obs s_start
      (Standard_BFS.searching_loop obs s_goal fuel σ) := by
  induction fuel generalizing σ with
  | zero => exact h
  | succ fuel ih =>
    rw [Standard_BFS.searching_loop]
    cases hpop : heappop σ.OPEN with
    | none => exact h
    | some er =>
      obtain ⟨m, rest⟩ := er
      simp only
      have h1 : ObsUntouched obs s_start
          { σ with OPEN := rest, CLOSED := σ.CLOSED ++ [m.2] } :=
        fun x hx hxs => h x hx hxs
      by_cases hg : m.2 = s_goal
      · rw [if_pos hg]
        exact h1
      · rw [if_neg hg]
        exact ih _ (bfs_relaxAll_obsUntouched obs s_start _ _ h1)

/-- Every element of a successfully extracted path satisfies `P`, provided
`P` holds for the start and for every key of the parent map. -/
theorem extract_path_aux_elems (PARENT : List (Coord × Coord))
    (s_start : Coord) (P : Coord → Prop) (hstart : P s_start)
    (hkey : ∀ y, dlookup PARENT y ≠ none → P y) :
    ∀ (fuel : ℕ) (s : Coord) (acc l : List Coord),
      extract_path_aux PARENT s_start fuel s acc = some l →
      (∀ y ∈ acc, P y) → ∀ y ∈ l, P y := by
  intro fuel
  induction fuel with
  | zero =>
    intro s acc l hres
    exact absurd hres (by simp [extract_path_aux])
  | succ fuel ih =>
    intro s acc l hres hacc
    rw [extract_path_aux] at hres
    cases hp : dlookup PARENT s with
    | none => rw [hp] at hres; exact absurd hres (by simp)
    | some p =>
      rw [hp] at hres
      simp only at hres
      by_cases hps : p = s_start
      · rw [if_pos hps] at hres
        have hl : acc ++ [p] = l := by
          simpa using hres
        intro y hy
        rw [← hl] at hy
        rcases List.mem_append.mp hy with h1 | h1
        · exact hacc y h1
        · rw [List.mem_singleton.mp h1, hps]
          exact hstart
      · rw [if_neg hps] at hres
        have hPp : P p := by
          cases fuel with
          | zero => exact absurd hres (by simp [extract_path_aux])
          | succ fuel2 =>
            rw [extract_path_aux] at hres
            cases hp2 : dlookup PARENT p with
            | none => rw [hp2] at hres; exact absurd hres (by simp)
            | some q =>
              refine hkey p ?_
              rw [hp2]
              simp
        refine ih p (acc ++ [p]) l hres ?_
        intro y hy
        rcases List.mem_append.mp hy with h1 | h1
        · exact hacc y h1
        · rw [List.mem_singleton.mp h1]
          exact hPp

/-- C9: in the A*/weighted-A*, Dijkstra and BFS engines, a blocked
coordinate (other than a blocked start) is never assigned a finite `g` value
(it is absent or +∞) and never receives a parent entry, because the edge
cost into a blocked endpoint is +∞ and relaxation requires a strict
improvement; consequently, when the start is unblocked, no returned path
passes through a blocked coordinate. -/
theorem C9_blocked_coordinates_untouched :
    (∀ (obs : Obs) (terrain : Terrain) (uset : List Coord) (w : Q2)
        (hfun : Coord → Q2) (s_start s_goal : Coord) (fuel : ℕ),
      (∀ x ∈ obs, x ≠ s_start →
        (dlookup (Real_Astar.searching_state obs terrain uset w hfun s_start
            s_goal fuel).g x = none ∨
         dlookup (Real_Astar.searching_state obs terrain uset w hfun s_start
            s_goal fuel).g x = some ⊤) ∧
        dlookup (Real_Astar.searching_state obs terrain uset w hfun s_start
            s_goal fuel).PARENT x = none) ∧
      (s_start ∉ obs → ∀ l, (Real_Astar.searching obs terrain uset w hfun
          s_start s_goal fuel).1 = some l → ∀ x ∈ l, x ∉ obs)) ∧
    (∀ (obs : Obs) (terrain : Terrain) (s_start s_goal : Coord) (fuel : ℕ),
      (∀ x ∈ obs, x ≠ s_start →
        (dlookup (Standard_Dijkstra.searching_state obs terrain s_start
            s_goal fuel).g x = none ∨
         dlookup (Standard_Dijkstra.searching_state obs terrain s_start
            s_goal fuel).g x = some ⊤) ∧
        dlookup (Standard_Dijkstra.searching_state obs terrain s_start
            s_goal fuel).PARENT x = none) ∧
      (s_start ∉ obs → ∀ l, (Standard_Dijkstra.searching obs terrain
          s_start s_goal fuel).1 = some l → ∀ x ∈ l, x ∉ obs)) ∧
    (∀ (obs : Obs) (s_start s_goal : Coord) (fuel : ℕ),
      (∀ x ∈ obs, x ≠ s_start →
        (dlookup (Standard_BFS.searching_state obs s_start s_goal fuel).g x =
            none ∨
         dlookup (Standard_BFS.searching_state obs s_start s_goal fuel).g x =
            some ⊤) ∧
        dlookup (Standard_BFS.searching_state obs s_start s_goal
            fuel).PARENT x = none) ∧
      (s_start ∉ obs → ∀ l, (Standard_BFS.searching obs s_start s_goal
          fuel).1 = some l → ∀ x ∈ l, x ∉ obs)) := by
  have pathpart : ∀ (obs : Obs) (PARENT : List (Coord × Coord))
      (s_start s_goal : Coord),
      (∀ x ∈ obs, x ≠ s_start → dlookup PARENT x = none) → s_start ∉ obs →
      ∀ l, extract_path PARENT s_start s_goal = some l → ∀ x ∈ l, x ∉ obs := by
    intro obs PARENT s_start s_goal hinv hstart l hres
    have hkey : ∀ y, dlookup PARENT y ≠ none → y ∉ obs := by
      intro y hy hyobs
      by_cases hys : y = s_start
      · exact hstart (hys ▸ hyobs)
      · exact hy (hinv y hyobs hys)
    unfold extract_path at hres
    have hgoal : (s_goal : Coord) ∉ obs := by
      rw [extract_path_aux] at hres
      cases hp : dlookup PARENT s_goal with
      | none => rw [hp] at hres; exact absurd hres (by simp)
      | some p =>
        refine hkey s_goal ?_
        rw [hp]
        simp
    refine extract_path_aux_elems PARENT s_start (fun y => y ∉ obs) hstart
      hkey _ s_goal [s_goal] l hres ?_
    intro y hy
    rw [List.mem_singleton.mp hy]
    exact hgoal
  refine ⟨?_, ?_, ?_⟩
  · intro obs terrain uset w hfun s_start s_goal fuel
    have hinv := astar_loop_obsUntouched obs terrain uset w hfun s_start
      s_goal fuel _ (obsUntouched_init obs s_start s_goal w hfun).1
    exact ⟨hinv, fun hstart =>
      pathpart obs _ s_start s_goal (fun x hx hxs => (hinv x hx hxs).2) hstart⟩
  · intro obs terrain s_start s_goal fuel
    have hinv := dijkstra_loop_obsUntouched obs terrain s_start s_goal fuel _
      (obsUntouched_init obs s_start s_goal 0 (manhattan s_goal)).2.1
    exact ⟨hinv, fun hstart =>
      pathpart obs _ s_start s_goal (fun x hx hxs => (hinv x hx hxs).2) hstart⟩
  · intro obs s_start s_goal fuel
    have hinv := bfs_loop_obsUntouched obs s_start s_goal fuel _
      (obsUntouched_init obs s_start s_goal 0 (manhattan s_goal)).2.2
    exact ⟨hinv, fun hstart =>
      pathpart obs _ s_start s_goal (fun x hx hxs => (hinv x hx hxs).2) hstart⟩

/-- C9: witness at the concrete runs with obstacle set {(2,2)}, start = goal
= (0,0), fuel 1, for all three engines. -/
theorem C9_witness :
    ((dlookup (Real_Astar.searching_state [((2:ℤ),(2:ℤ))] [] u_set8 1
        (manhattan (0,0)) (0,0) (0,0) 1).g (2,2) = none ∨
      dlookup (Real_Astar.searching_state [((2:ℤ),(2:ℤ))] [] u_set8 1
        (manhattan (0,0)) (0,0) (0,0) 1).g (2,2) = some ⊤) ∧
     dlookup (Real_Astar.searching_state [((2:ℤ),(2:ℤ))] [] u_set8 1
        (manhattan (0,0)) (0,0) (0,0) 1).PARENT (2,2) = none) ∧
    (∀ x ∈ [((0:ℤ),(0:ℤ)), ((0:ℤ),(0:ℤ))], x ∉ ([((2:ℤ),(2:ℤ))] : Obs)) ∧
    (∀ x ∈ [((0:ℤ),(0:ℤ)), ((0:ℤ),(0:ℤ))], x ∉ ([((2:ℤ),(2:ℤ))] : Obs)) ∧
    (∀ x ∈ [((0:ℤ),(0:ℤ)), ((0:ℤ),(0:ℤ))], x ∉ ([((2:ℤ),(2:ℤ))] : Obs)) :=
  ⟨(C9_blocked_coordinates_untouched.1 [((2:ℤ),(2:ℤ))] [] u_set8 1
      (manhattan (0,0)) (0,0) (0,0) 1).1 (2,2) (by decide) (by decide),
   (C9_blocked_coordinates_untouched.1 [((2:ℤ),(2:ℤ))] [] u_set8 1
      (manhattan (0,0)) (0,0) (0,0) 1).2 (by decide)
      [((0:ℤ),(0:ℤ)), ((0:ℤ),(0:ℤ))] (by decide),
   (C9_blocked_coordinates_untouched.2.1 [((2:ℤ),(2:ℤ))] [] (0,0) (0,0) 1).2
      (by decide) [((0:ℤ),(0:ℤ)), ((0:ℤ),(0:ℤ))] (by decide),
   (C9_blocked_coordinates_untouched.2.2 [((2:ℤ),(2:ℤ))] (0,0) (0,0) 1).2
      (by decide) [((0:ℤ),(0:ℤ)), ((0:ℤ),(0:ℤ))] (by decide)⟩

/-! ## C8: the extracted path is a valid route from start to goal -/

theorem dlookup_dinsert_ne_none {α : Type} (l : List (Coord × α)) (k key : Coord)
    (v : α) (h : dlookup l key ≠ none) : dlookup (dinsert l k v) key ≠ none := by
  by_cases hk : key = k
  · subst hk
    rw [dlookup_dinsert_self]
    simp
  · rw [dlookup_dinsert_ne _ _ _ _ hk]
    exact h

theorem dlookup_ne_none_iff_mem {α : Type} (l : List (Coord × α)) (key : Coord) :
    dlookup l key ≠ none ↔ key ∈ l.map Prod.fst := by
  induction l with
  | nil => simp [dlookup]
  | cons kv rest ih =>
    obtain ⟨k, v⟩ := kv
    by_cases hk : key = k
    · subst hk
      simp [dlookup]
    · rw [show dlookup ((k, v) :: rest) key = dlookup rest key by simp [dlookup, hk]]
      simp [ih, hk]

theorem gval_top_insert (σ : AState) (s_n : Coord)
    (h : (dlookup σ.g s_n).isNone = true) :
    ∀ y, gval { σ with g := dinsert σ.g s_n ⊤ } y = gval σ y := by
  intro y
  unfold gval
  by_cases hy : y = s_n
  · subst hy
    rw [dlookup_dinsert_self]
    rw [Option.isNone_iff_eq_none] at h
    rw [h]
    rfl
  · rw [dlookup_dinsert_ne _ _ _ _ hy]

theorem one_le_sqrt2 : (1 : Q2) ≤ Q2.sqrt2 := by
  rw [Q2.le_iff_toR, Q2.toR_one]
  have h := Q2.sq_sqrt2
  have h2 := Real.sqrt_nonneg 2
  show (1 : ℝ) ≤ (0 : ℚ) + (1 : ℚ) * Real.sqrt 2
  push_cast
  nlinarith

theorem one_le_terrain (terrain : Terrain)
    (hter : ∀ kv ∈ terrain, 1 ≤ kv.2) (x : Coord) :
    (1 : Q2) ≤ (get_terrain_cost terrain x : Q2) := by
  unfold get_terrain_cost
  cases hl : dlookup terrain x with
  | none =>
    simp only [Option.getD_none]
    exact le_refl _
  | some v =>
    simp only [Option.getD_some]
    have hv : 1 ≤ v := hter (x, v) (dlookup_isSome_mem _ _ _ hl)
    exact_mod_cast hv

/-- A move to a distinct cell costs at least 1 (or +∞ when blocked). -/
theorem one_le_cost (obs : Obs) (terrain : Terrain)
    (hter : ∀ kv ∈ terrain, 1 ≤ kv.2) (p x : Coord) (hne : p ≠ x) :
    (((1 : Q2)) : WithTop Q2) ≤ Real_Astar.cost obs terrain p x := by
  unfold Real_Astar.cost
  split
  · exact le_top
  · have hbase : (1 : Q2) ≤ hypotBase p x := by
      unfold hypotBase
      split
      case isTrue hc =>
        exact absurd (Prod.ext hc.1 hc.2) hne
      case isFalse hc =>
        split
        · exact one_le_sqrt2
        · exact le_refl _
    have ht := one_le_terrain terrain hter x
    have := mul_le_mul hbase ht (by
        rw [Q2.le_iff_toR, Q2.toR_zero, Q2.toR_one]
        norm_num) (le_trans (by
        rw [Q2.le_iff_toR, Q2.toR_zero, Q2.toR_one]
        norm_num) hbase)
    rw [one_mul] at this
    exact_mod_cast this

theorem cost_nonneg (obs : Obs) (terrain : Terrain) (p x : Coord) :
    (0 : WithTop Q2) ≤ Real_Astar.cost obs terrain p x := by
  unfold Real_Astar.cost
  split
  · exact le_top
  · have hbase : (0 : Q2) ≤ hypotBase p x := by
      unfold hypotBase
      split
      · exact le_refl _
      · split
        · exact le_trans (by
            rw [Q2.le_iff_toR, Q2.toR_zero, Q2.toR_one]
            norm_num) one_le_sqrt2
        · rw [Q2.le_iff_toR, Q2.toR_zero, Q2.toR_one]
          norm_num
    have ht : (0 : Q2) ≤ (get_terrain_cost terrain x : Q2) := by
      have h0 : ((0 : ℕ) : Q2) ≤ ((get_terrain_cost terrain x : ℕ) : Q2) := by
        rw [Q2.le_iff_toR, Q2.toR_natCast, Q2.toR_natCast]
        exact_mod_cast Nat.zero_le _
      exact_mod_cast h0
    exact_mod_cast mul_nonneg hbase ht

theorem lt_add_of_one_le (a : WithTop Q2) (ha : a ≠ ⊤) (c : WithTop Q2)
    (hc : (((1 : Q2)) : WithTop Q2) ≤ c) : a < a + c := by
  cases a with
  | top => exact absurd rfl ha
  | coe va =>
    cases c with
    | top =>
      rw [WithTop.add_top]
      exact WithTop.coe_lt_top va
    | coe vc =>
      have hvc : (1 : Q2) ≤ vc := by exact_mod_cast hc
      rw [← WithTop.coe_add, WithTop.coe_lt_coe]
      have hpos : (0 : Q2) < vc :=
        lt_of_lt_of_le (by
          rw [Q2.lt_iff_toR, Q2.toR_zero, Q2.toR_one]
          norm_num) hvc
      linarith

/-- The invariant bundle for the round-trip proof (A* engine on `u_set8`). -/
structure C8Inv (obs : Obs) (terrain : Terrain) (s_start : Coord)
    (σ : AState) : Prop where
  hstart : dlookup σ.PARENT s_start = some s_start
  hg0 : gval σ s_start = 0
  hnn : ∀ y, (0 : WithTop Q2) ≤ gval σ y
  hchain : ∀ x p, dlookup σ.PARENT x = some p → x ≠ s_start →
    (∃ u ∈ u_set8, x = (p.1 + u.1, p.2 + u.2)) ∧
    Real_Astar.cost obs terrain p x ≠ ⊤ ∧
    dlookup σ.PARENT p ≠ none ∧ gval σ p < gval σ x
  hopen : ∀ e ∈ σ.OPEN, dlookup σ.PARENT e.2 ≠ none
  hclosed : ∀ x ∈ σ.CLOSED, dlookup σ.PARENT x ≠ none

theorem u_set8_ne_zero : ∀ u ∈ u_set8, u ≠ ((0 : ℤ), (0 : ℤ)) := by decide

theorem neighbor_ne (s s_n : Coord)
    (hn : ∃ u ∈ u_set8, s_n = (s.1 + u.1, s.2 + u.2)) : s ≠ s_n := by
  obtain ⟨u, hu, hform⟩ := hn
  have hne := u_set8_ne_zero u hu
  intro hc
  apply hne
  rw [← hc] at hform
  have h1 := congrArg Prod.fst hform
  have h2 := congrArg Prod.snd hform
  simp at h1 h2
  ext <;> simp <;> omega

theorem g1_lookup_eq (σ : AState) (s_n : Coord) :
    ((dlookup (if (dlookup σ.g s_n).isNone then dinsert σ.g s_n ⊤ else σ.g)
      s_n).getD ⊤) = gval σ s_n := by
  split
  case isTrue h =>
    rw [dlookup_dinsert_self]
    unfold gval
    rw [Option.isNone_iff_eq_none] at h
    rw [h]
    rfl
  case isFalse h => rfl

theorem relax_parent_mono (obs : Obs) (terrain : Terrain) (w : Q2)
    (hfun : Coord → Q2) (σ : AState) (s s_n y : Coord)
    (h : dlookup σ.PARENT y ≠ none) :
    dlookup (Real_Astar.relax obs terrain w hfun σ s s_n).PARENT y ≠ none := by
  unfold Real_Astar.relax
  dsimp only
  split <;> split
  · exact dlookup_dinsert_ne_none _ _ _ _ h
  · exact h
  · exact dlookup_dinsert_ne_none _ _ _ _ h
  · exact h

theorem c8_relax_inv (obs : Obs) (terrain : Terrain) (w : Q2)
    (hfun : Coord → Q2) (s_start : Coord)
    (hter : ∀ kv ∈ terrain, 1 ≤ kv.2) (σ : AState) (s s_n : Coord)
    (hs_dom : dlookup σ.PARENT s ≠ none)
    (hn : ∃ u ∈ u_set8, s_n = (s.1 + u.1, s.2 + u.2))
    (hinv : C8Inv obs terrain s_start σ) :
    C8Inv obs terrain s_start (Real_Astar.relax obs terrain w hfun σ s s_n) := by
  have hsne : s ≠ s_n := neighbor_ne s s_n hn
  unfold Real_Astar.relax
  dsimp only
  rw [show (dlookup (if (dlookup σ.g s_n).isNone then dinsert σ.g s_n ⊤
      else σ.g) s_n).getD ⊤ = gval σ s_n from g1_lookup_eq σ s_n]
  by_cases himp : gval σ s + Real_Astar.cost obs terrain s s_n < gval σ s_n
  · rw [if_pos himp]
    set new := gval σ s + Real_Astar.cost obs terrain s s_n with hnew
    have hnewne : new ≠ ⊤ := ne_top_of_lt himp
    have hgs_ne : gval σ s ≠ ⊤ := (WithTop.add_ne_top.mp hnewne).1
    have hcost_ne : Real_Astar.cost obs terrain s s_n ≠ ⊤ :=
      (WithTop.add_ne_top.mp hnewne).2
    have hnew_nn : (0 : WithTop Q2) ≤ new :=
      add_nonneg (hinv.hnn s) (cost_nonneg obs terrain s s_n)
    have hsn_start : s_n ≠ s_start := by
      intro hc
      rw [hc, hinv.hg0] at himp
      exact absurd (lt_of_le_of_lt hnew_nn himp) (lt_irrefl 0)
    have hgval : ∀ (o : List Entry) (c : List Coord)
        (pa : List (Coord × Coord)) (y : Coord),
        gval ⟨o, c, pa, dinsert (if (dlookup σ.g s_n).isNone
          then dinsert σ.g s_n ⊤ else σ.g) s_n new⟩ y =
          if y = s_n then new else gval σ y := by
      intro o c pa y
      unfold gval
      dsimp only
      by_cases hy : y = s_n
      · subst hy
        rw [if_pos rfl, dlookup_dinsert_self]
        rfl
      · rw [if_neg hy, dlookup_dinsert_ne _ _ _ _ hy]
        split
        next h => rw [dlookup_dinsert_ne _ _ _ _ hy]
        next h => rfl
    refine ⟨?_, ?_, ?_, ?_, ?_, ?_⟩
    · show dlookup (dinsert σ.PARENT s_n s) s_start = some s_start
      rw [dlookup_dinsert_ne _ _ _ _ (fun hc => hsn_start hc.symm)]
      exact hinv.hstart
    · rw [hgval _ _ _ s_start, if_neg (fun hc => hsn_start hc.symm)]
      exact hinv.hg0
    · intro y
      rw [hgval _ _ _ y]
      split
      · exact hnew_nn
      · exact hinv.hnn y
    · intro x p hx hxs
      rw [show dlookup (dinsert σ.PARENT s_n s) x =
          if x = s_n then some s else dlookup σ.PARENT x from by
        by_cases hxn : x = s_n
        · subst hxn
          rw [if_pos rfl, dlookup_dinsert_self]
        · rw [if_neg hxn, dlookup_dinsert_ne _ _ _ _ hxn]] at hx
      by_cases hxn : x = s_n
      · rw [if_pos hxn] at hx
        have hps : p = s := by
          injection hx with h
          exact h.symm
        subst hps
        refine ⟨?_, ?_, ?_, ?_⟩
        · rw [hxn]
          exact hn
        · rw [hxn]
          exact hcost_ne
        · exact dlookup_dinsert_ne_none _ _ _ _ hs_dom
        · rw [hgval _ _ _ p, hgval _ _ _ x, if_pos hxn, if_neg hsne]
          exact lt_add_of_one_le (gval σ p) hgs_ne _
            (one_le_cost obs terrain hter p s_n hsne)
      · rw [if_neg hxn] at hx
        obtain ⟨huf, hcost, hdom, hglt⟩ := hinv.hchain x p hx hxs
        refine ⟨huf, hcost, dlookup_dinsert_ne_none _ _ _ _ hdom, ?_⟩
        rw [hgval _ _ _ x, hgval _ _ _ p, if_neg hxn]
        by_cases hpn : p = s_n
        · rw [if_pos hpn]
          subst hpn
          exact lt_trans himp hglt
        · rw [if_neg hpn]
          exact hglt
    · intro e he
      rcases List.mem_cons.mp he with h1 | h1
      · rw [h1]
        show dlookup (dinsert σ.PARENT s_n s) s_n ≠ none
        rw [dlookup_dinsert_self]
        simp
      · exact dlookup_dinsert_ne_none _ _ _ _ (hinv.hopen e h1)
    · intro x hx
      exact dlookup_dinsert_ne_none _ _ _ _ (hinv.hclosed x hx)
  · rw [if_neg himp]
    split
    next h =>
      have hgv := gval_top_insert σ s_n h
      refine ⟨hinv.hstart, ?_, ?_, ?_, hinv.hopen, hinv.hclosed⟩
      · rw [hgv]
        exact hinv.hg0
      · intro y
        rw [hgv]
        exact hinv.hnn y
      · intro x p hx hxs
        obtain ⟨huf, hcost, hdom, hglt⟩ := hinv.hchain x p hx hxs
        refine ⟨huf, hcost, hdom, ?_⟩
        rw [hgv, hgv]
        exact hglt
    next h => exact hinv

theorem mem_get_neighbor (uset : List Coord) (s x : Coord)
    (h : x ∈ get_neighbor uset s) : ∃ u ∈ uset, x = (s.1 + u.1, s.2 + u.2) := by
  unfold get_neighbor at h
  obtain ⟨u, hu, hx⟩ := List.mem_map.mp h
  exact ⟨u, hu, hx.symm⟩

theorem c8_relaxAll_inv (obs : Obs) (terrain : Terrain) (w : Q2)
    (hfun : Coord → Q2) (s_start : Coord)
    (hter : ∀ kv ∈ terrain, 1 ≤ kv.2) (σ : AState) (s : Coord)
    (hs_dom : dlookup σ.PARENT s ≠ none)
    (hinv : C8Inv obs terrain s_start σ) :
    C8Inv obs terrain s_start
      (Real_Astar.relaxAll obs terrain u_set8 w hfun σ s) := by
  unfold Real_Astar.relaxAll
  have main : ∀ (l : List Coord),
      (∀ x ∈ l, ∃ u ∈ u_set8, x = (s.1 + u.1, s.2 + u.2)) →
      ∀ σ, dlookup σ.PARENT s ≠ none → C8Inv obs terrain s_start σ →
      C8Inv obs terrain s_start (l.foldl
        (fun σ s_n => Real_Astar.relax obs terrain w hfun σ s s_n) σ) := by
    intro l
    induction l with
    | nil =>
      intro _ σ _ h
      exact h
    | cons a t ih =>
      intro hforms σ hdom hinv2
      simp only [List.foldl_cons]
      exact ih (fun x hx => hforms x (List.mem_cons_of_mem _ hx)) _
        (relax_parent_mono obs terrain w hfun σ s a s hdom)
        (c8_relax_inv obs terrain w hfun s_start hter σ s a hdom
          (hforms a (List.mem_cons_self _ _)) hinv2)
  exact main _ (mem_get_neighbor u_set8 s) σ hs_dom hinv

theorem c8_loop_inv (obs : Obs) (terrain : Terrain) (w : Q2)
    (hfun : Coord → Q2) (s_start s_goal : Coord)
    (hter : ∀ kv ∈ terrain, 1 ≤ kv.2) (fuel : ℕ) (σ : AState)
    (hinv : C8Inv obs terrain s_start σ) :
    C8Inv obs terrain s_start
      (Real_Astar.searching_loop obs terrain u_set8 w hfun s_goal fuel σ) := by
  induction fuel generalizing σ with
  | zero => exact hinv
  | succ fuel ih =>
    rw [Real_Astar.searching_loop]
    cases hpop : popMin σ.OPEN with
    | none => exact hinv
    | some er =>
      obtain ⟨m, rest⟩ := er
      obtain ⟨hmem, hrest, hmin⟩ := popMin_some hpop
      simp only
      have h1 : C8Inv obs terrain s_start
          { σ with OPEN := rest, CLOSED := σ.CLOSED ++ [m.2] } := by
        refine ⟨hinv.hstart, hinv.hg0, hinv.hnn, hinv.hchain, ?_, ?_⟩
        · intro e he
          refine hinv.hopen e ?_
          show e ∈ σ.OPEN
          rw [hrest] at he
          exact List.mem_of_mem_erase he
        · intro x hx
          rcases List.mem_append.mp hx with h2 | h2
          · exact hinv.hclosed x h2
          · rw [List.mem_singleton.mp h2]
            exact hinv.hopen m hmem
      by_cases hg : m.2 = s_goal
      · rw [if_pos hg]
        exact h1
      · rw [if_neg hg]
        exact ih _ (c8_relaxAll_inv obs terrain w hfun s_start hter _ m.2
          (hinv.hopen m hmem) h1)

theorem c8_init_inv (obs : Obs) (terrain : Terrain) (w : Q2)
    (hfun : Coord → Q2) (s_start s_goal : Coord) (hne : s_start ≠ s_goal) :
    C8Inv obs terrain s_start (Real_Astar.init_state w hfun s_start s_goal) := by
  refine ⟨?_, ?_, ?_, ?_, ?_, ?_⟩
  · show dlookup (dinsert [] s_start s_start) s_start = some s_start
    rw [dlookup_dinsert_self]
  · show (dlookup (dinsert (dinsert [] s_start 0) s_goal ⊤) s_start).getD ⊤ = 0
    rw [dlookup_dinsert_ne _ _ _ _ hne, dlookup_dinsert_self]
    rfl
  · intro y
    show (0 : WithTop Q2) ≤
      (dlookup (dinsert (dinsert [] s_start 0) s_goal ⊤) y).getD ⊤
    by_cases hy : y = s_goal
    · subst hy
      rw [dlookup_dinsert_self]
      exact le_top
    · rw [dlookup_dinsert_ne _ _ _ _ hy]
      by_cases hy2 : y = s_start
      · subst hy2
        rw [dlookup_dinsert_self]
        exact le_refl _
      · rw [dlookup_dinsert_ne _ _ _ _ hy2]
        exact le_top
  · intro x p hx hxs
    exfalso
    rw [show dlookup (Real_Astar.init_state w hfun s_start s_goal).PARENT x =
        dlookup (dinsert ([] : List (Coord × Coord)) s_start s_start) x
        from rfl, dlookup_dinsert_ne _ _ _ _ hxs] at hx
    exact Option.noConfusion hx
  · intro e he
    rw [show (Real_Astar.init_state w hfun s_start s_goal).OPEN =
      [(Real_Astar.f_value w hfun
        { OPEN := [], CLOSED := [], PARENT := dinsert [] s_start s_start,
          g := dinsert (dinsert [] s_start 0) s_goal ⊤ } s_start, s_start)]
      from rfl] at he
    rw [List.mem_singleton.mp he]
    show dlookup (dinsert [] s_start s_start) s_start ≠ none
    rw [dlookup_dinsert_self]
    simp
  · intro x hx
    exact absurd hx (List.not_mem_nil x)

/-- Number of parent-map keys with strictly smaller `g`: the termination
measure of the parent walk. -/
def rank (σ : AState) (x : Coord) : ℕ :=
  ((σ.PARENT.map Prod.fst).toFinset.filter (fun y => gval σ y < gval σ x)).card

theorem rank_lt (σ : AState) (x p : Coord)
    (hpdom : dlookup σ.PARENT p ≠ none) (hplt : gval σ p < gval σ x) :
    rank σ p < rank σ x := by
  refine Finset.card_lt_card ?_
  constructor
  · intro y hy
    obtain ⟨hmem, hlt⟩ := Finset.mem_filter.mp hy
    exact Finset.mem_filter.mpr ⟨hmem, lt_trans hlt hplt⟩
  · intro hsub
    have hp : p ∈ (σ.PARENT.map Prod.fst).toFinset.filter
        (fun y => gval σ y < gval σ x) := by
      refine Finset.mem_filter.mpr ⟨?_, hplt⟩
      rw [List.mem_toFinset]
      exact (dlookup_ne_none_iff_mem _ _).mp hpdom
    have := Finset.mem_filter.mp (hsub hp)
    exact absurd this.2 (lt_irrefl _)

theorem rank_le_length (σ : AState) (x : Coord) :
    rank σ x ≤ σ.PARENT.length := by
  calc rank σ x ≤ (σ.PARENT.map Prod.fst).toFinset.card :=
        Finset.card_filter_le _ _
    _ ≤ (σ.PARENT.map Prod.fst).length := List.toFinset_card_le _
    _ = σ.PARENT.length := List.length_map _ _

/-- The parent walk from any non-start key reaches the start, and the
resulting suffix is a strictly `g`-decreasing parent chain. -/
theorem extract_chain (σ : AState) (s_start : Coord)
    (hchain : ∀ x p, dlookup σ.PARENT x = some p → x ≠ s_start →
      dlookup σ.PARENT p ≠ none ∧ gval σ p < gval σ x) :
    ∀ (n : ℕ) (s : Coord) (acc : List Coord), s ≠ s_start →
      dlookup σ.PARENT s ≠ none → rank σ s < n →
      ∃ tail, extract_path_aux σ.PARENT s_start n s acc = some (acc ++ tail) ∧
        tail ≠ [] ∧ tail.getLast? = some s_start ∧
        List.Chain' (fun a b => dlookup σ.PARENT a = some b ∧ a ≠ s_start)
          (s :: tail) ∧
        List.Chain' (fun a b => gval σ b < gval σ a) (s :: tail) := by
  intro n
  induction n with
  | zero =>
    intro s acc hsne hdom hrank
    exact absurd hrank (Nat.not_lt_zero _)
  | succ n ih =>
    intro s acc hsne hdom hrank
    rw [extract_path_aux]
    cases hp : dlookup σ.PARENT s with
    | none => exact absurd hp hdom
    | some p =>
      obtain ⟨hpdom, hplt⟩ := hchain s p hp hsne
      simp only
      by_cases hps : p = s_start
      · rw [if_pos hps]
        refine ⟨[p], rfl, by simp, by simp [hps], ?_, ?_⟩
        · exact List.chain'_pair.mpr ⟨hp, hsne⟩
        · exact List.chain'_pair.mpr hplt
      · rw [if_neg hps]
        have hrankp : rank σ p < n :=
          Nat.lt_of_lt_of_le (rank_lt σ s p hpdom hplt)
            (Nat.lt_succ_iff.mp hrank)
        obtain ⟨tail2, heq, hne2, hlast, hc1, hc2⟩ :=
          ih p (acc ++ [p]) hps hpdom hrankp
        refine ⟨p :: tail2, ?_, by simp, ?_, ?_, ?_⟩
        · rw [heq]
          simp
        · obtain ⟨b, t, rfl⟩ := List.exists_cons_of_ne_nil hne2
          rw [List.getLast?_cons_cons]
          exact hlast
        · exact List.chain'_cons.mpr ⟨⟨hp, hsne⟩, hc1⟩
        · exact List.chain'_cons.mpr ⟨hplt, hc2⟩

theorem nodup_of_gdec (σ : AState) (l : List Coord)
    (h : List.Chain' (fun a b => gval σ b < gval σ a) l) : l.Nodup := by
  haveI : IsTrans Coord (fun a b : Coord => gval σ b < gval σ a) :=
    ⟨fun a b c hab hbc => lt_trans hbc hab⟩
  have hpw := List.chain'_iff_pairwise.mp h
  refine hpw.imp ?_
  intro a b hab heq
  rw [heq] at hab
  exact absurd hab (lt_irrefl _)

/-- C8: amended (start ≠ goal added).  For every successful A* search (goal
finalized) with a positive terrain overlay and distinct endpoints, the
extracted path, reversed, starts at the start, ends at the goal, has no
duplicate coordinates, and every consecutive pair is a `u_set8` move whose
edge cost is finite (not blocked). -/
theorem C8_round_trip (obs : Obs) (terrain : Terrain) (w : Q2)
    (hfun : Coord → Q2) (s_start s_goal : Coord) (fuel : ℕ)
    (hter : ∀ kv ∈ terrain, 1 ≤ kv.2) (hne : s_start ≠ s_goal)
    (hsuccess : s_goal ∈ (Real_Astar.searching_state obs terrain u_set8 w hfun
      s_start s_goal fuel).CLOSED) :
    ∃ l, (Real_Astar.searching obs terrain u_set8 w hfun s_start s_goal
        fuel).1 = some l ∧
      l.reverse.head? = some s_start ∧
      l.reverse.getLast? = some s_goal ∧
      l.Nodup ∧
      List.Chain' (fun a b => (∃ u ∈ u_set8, b = (a.1 + u.1, a.2 + u.2)) ∧
        Real_Astar.cost obs terrain a b ≠ ⊤) l.reverse := by
  have hinv : C8Inv obs terrain s_start
      (Real_Astar.searching_state obs terrain u_set8 w hfun s_start s_goal
        fuel) :=
    c8_loop_inv obs terrain w hfun s_start s_goal hter fuel _
      (c8_init_inv obs terrain w hfun s_start s_goal hne)
  have hgoal_dom : dlookup (Real_Astar.searching_state obs terrain u_set8 w
      hfun s_start s_goal fuel).PARENT s_goal ≠ none :=
    hinv.hclosed s_goal hsuccess
  have hgne : s_goal ≠ s_start := fun hc => hne hc.symm
  obtain ⟨tail, heq, hne2, hlast, hc1, hc2⟩ := extract_chain _ s_start
    (fun x p hx hxs => ⟨(hinv.hchain x p hx hxs).2.2.1,
      (hinv.hchain x p hx hxs).2.2.2⟩)
    ((Real_Astar.searching_state obs terrain u_set8 w hfun s_start s_goal
      fuel).PARENT.length + 1) s_goal [s_goal] hgne hgoal_dom
    (Nat.lt_succ_of_le (rank_le_length _ s_goal))
  refine ⟨s_goal :: tail, ?_, ?_, ?_, ?_, ?_⟩
  · show extract_path (Real_Astar.searching_state obs terrain u_set8 w hfun
      s_start s_goal fuel).PARENT s_start s_goal = some (s_goal :: tail)
    unfold extract_path
    rw [heq]
    rfl
  · rw [List.head?_reverse]
    obtain ⟨b, t, rfl⟩ := List.exists_cons_of_ne_nil hne2
    rw [List.getLast?_cons_cons]
    exact hlast
  · rw [List.getLast?_reverse]
    rfl
  · exact nodup_of_gdec _ _ hc2
  · rw [List.chain'_reverse]
    refine List.Chain'.imp ?_ hc1
    intro a b hab
    obtain ⟨huf, hcost, _, _⟩ := hinv.hchain a b hab.1 hab.2
    exact ⟨huf, hcost⟩

/-- C8: counterexample to the claim as stated.  In the degenerate successful
search with start = goal = (0,0) the code returns the path [goal, start] =
[(0,0), (0,0)], which has a duplicate coordinate and whose consecutive pair
is not a move of the topology. -/
theorem C8_degenerate_counterexample :
    (0, 0) ∈ (Real_Astar.searching_state [] [] u_set8 1 (manhattan (0, 0))
      (0, 0) (0, 0) 3).CLOSED ∧
    (Real_Astar.searching [] [] u_set8 1 (manhattan (0, 0))
      (0, 0) (0, 0) 3).1 = some [(0, 0), (0, 0)] ∧
    ¬ ([((0:ℤ), (0:ℤ)), ((0:ℤ), (0:ℤ))] : List Coord).Nodup ∧
    ¬ (∃ u ∈ u_set8, ((0:ℤ), (0:ℤ)) = ((0:ℤ) + u.1, (0:ℤ) + u.2)) := by
  refine ⟨by decide, by decide, by decide, by decide⟩

/-- C8: witness on the obstacle-free run from (0,0) to (1,1). -/
theorem C8_witness :
    ∃ l, (Real_Astar.searching [] [] u_set8 1 (manhattan (1, 1))
        (0, 0) (1, 1) 5).1 = some l ∧
      l.reverse.head? = some ((0 : ℤ), (0 : ℤ)) ∧
      l.reverse.getLast? = some ((1 : ℤ), (1 : ℤ)) ∧
      l.Nodup ∧
      List.Chain' (fun a b => (∃ u ∈ u_set8, b = (a.1 + u.1, a.2 + u.2)) ∧
        Real_Astar.cost [] [] a b ≠ ⊤) l.reverse :=
  C8_round_trip [] [] 1 (manhattan (1, 1)) (0, 0) (1, 1) 5
    (by decide) (by decide) (by decide)

/-! ## C4: optimality of the returned cost for consistent heuristics, w ≤ 1 -/

/-- A collision-free king-move walk: every consecutive pair is a `u_set8`
offset with finite edge cost. -/
def ValidSteps (obs : Obs) (terrain : Terrain) (l : List Coord) : Prop :=
  List.Chain' (fun a b => (∃ u ∈ u_set8, b = (a.1 + u.1, a.2 + u.2)) ∧
    Real_Astar.cost obs terrain a b ≠ ⊤) l

/-- The total edge cost of a walk. -/
def pathCost (obs : Obs) (terrain : Terrain) : List Coord → WithTop Q2
  | a :: b :: rest => Real_Astar.cost obs terrain a b +
      pathCost obs terrain (b :: rest)
  | _ => 0

/-- A collision-free walk from `src` to `dst`. -/
def IsPathFrom (obs : Obs) (terrain : Terrain) (l : List Coord)
    (src dst : Coord) : Prop :=
  l.head? = some src ∧ l.getLast? = some dst ∧ ValidSteps obs terrain l

theorem pathCost_append (obs : Obs) (terrain : Terrain) (l : List Coord)
    (z1 z2 : Coord) (hl : l.getLast? = some z1) :
    pathCost obs terrain (l ++ [z2]) =
      pathCost obs terrain l + Real_Astar.cost obs terrain z1 z2 := by
  induction l with
  | nil => simp at hl
  | cons a t ih =>
    cases t with
    | nil =>
      simp only [List.getLast?_singleton, Option.some.injEq] at hl
      subst hl
      show Real_Astar.cost obs terrain a z2 + pathCost obs terrain [z2] =
        pathCost obs terrain [a] + Real_Astar.cost obs terrain a z2
      show Real_Astar.cost obs terrain a z2 + 0 =
        0 + Real_Astar.cost obs terrain a z2
      rw [add_zero, zero_add]
    | cons b t2 =>
      rw [List.getLast?_cons_cons] at hl
      show Real_Astar.cost obs terrain a b +
          pathCost obs terrain ((b :: t2) ++ [z2]) = _
      rw [ih hl]
      show _ = Real_Astar.cost obs terrain a b +
          pathCost obs terrain (b :: t2) + Real_Astar.cost obs terrain z1 z2
      rw [add_assoc]

theorem pathCost_ne_top (obs : Obs) (terrain : Terrain) :
    ∀ l : List Coord, ValidSteps obs terrain l →
      pathCost obs terrain l ≠ ⊤ := by
  intro l
  induction l with
  | nil =>
    intro _
    simp [pathCost]
  | cons a t ih =>
    intro hv
    cases t with
    | nil => simp [pathCost]
    | cons b t2 =>
      obtain ⟨hstep, hrest⟩ := List.chain'_cons.mp hv
      show Real_Astar.cost obs terrain a b + pathCost obs terrain (b :: t2) ≠ ⊤
      exact WithTop.add_ne_top.mpr ⟨hstep.2, ih hrest⟩

theorem pathCost_nonneg (obs : Obs) (terrain : Terrain) :
    ∀ l : List Coord, (0 : WithTop Q2) ≤ pathCost obs terrain l := by
  intro l
  induction l with
  | nil => exact le_refl _
  | cons a t ih =>
    cases t with
    | nil => exact le_refl _
    | cons b t2 =>
      show (0 : WithTop Q2) ≤ Real_Astar.cost obs terrain a b +
        pathCost obs terrain (b :: t2)
      exact add_nonneg (cost_nonneg obs terrain a b) ih

/-- The per-edge potential step: for `0 ≤ w ≤ 1` and a consistent heuristic,
`w·h(a) ≤ cost(a,b) + w·h(b)` on finite edges. -/
theorem weighted_consistency (obs : Obs) (terrain : Terrain) (w : Q2)
    (hfun : Coord → Q2) (hw0 : 0 ≤ w) (hw1 : w ≤ 1)
    (hcons : ∀ a b : Coord, (∃ u ∈ u_set8, b = (a.1 + u.1, a.2 + u.2)) →
      ∀ c : Q2, Real_Astar.cost obs terrain a b = some c →
        hfun a ≤ c + hfun b)
    (a b : Coord) (hform : ∃ u ∈ u_set8, b = (a.1 + u.1, a.2 + u.2)) :
    (((w * hfun a : Q2)) : WithTop Q2) ≤
      Real_Astar.cost obs terrain a b + ((w * hfun b : Q2) : WithTop Q2) := by
  cases hc : Real_Astar.cost obs terrain a b with
  | top =>
    rw [WithTop.top_add]
    exact le_top
  | coe c =>
    have hcons2 := hcons a b hform c hc
    have hc0 : (0 : Q2) ≤ c := by
      have := cost_nonneg obs terrain a b
      rw [hc] at this
      exact_mod_cast this
    rw [← WithTop.coe_add, WithTop.coe_le_coe]
    have h1 : w * hfun a ≤ w * (c + hfun b) :=
      mul_le_mul_of_nonneg_left hcons2 hw0
    have h2 : w * c ≤ c := by
      calc w * c ≤ 1 * c := mul_le_mul_of_nonneg_right hw1 hc0
        _ = c := one_mul c
    calc w * hfun a ≤ w * (c + hfun b) := h1
      _ = w * c + w * hfun b := by ring
      _ ≤ c + w * hfun b := add_le_add_right h2 _

/-- In the improvement branch (`new_cost < g[s_n]`), `relax` sets
`g[s_n] := g[s] + cost(s, s_n)` and leaves other `g` values unchanged. -/
theorem relax_gval_imp (obs : Obs) (terrain : Terrain) (w : Q2)
    (hfun : Coord → Q2) (σ : AState) (s s_n : Coord)
    (himp : gval σ s + Real_Astar.cost obs terrain s s_n < gval σ s_n) :
    ∀ y, gval (Real_Astar.relax obs terrain w hfun σ s s_n) y =
      if y = s_n then gval σ s + Real_Astar.cost obs terrain s s_n
      else gval σ y := by
  intro y
  unfold Real_Astar.relax
  dsimp only
  rw [show (dlookup (if (dlookup σ.g s_n).isNone then dinsert σ.g s_n ⊤
      else σ.g) s_n).getD ⊤ = gval σ s_n from g1_lookup_eq σ s_n]
  rw [if_pos himp]
  unfold gval
  dsimp only
  by_cases hy : y = s_n
  · subst hy
    rw [if_pos rfl, dlookup_dinsert_self]
    rfl
  · rw [if_neg hy, dlookup_dinsert_ne _ _ _ _ hy]
    split
    next h => rw [dlookup_dinsert_ne _ _ _ _ hy]
    next h => rfl

/-- Outside the improvement branch, `relax` leaves all `g` values unchanged
(the initializing write of +∞ to a missing key is invisible to `gval`). -/
theorem relax_gval_nimp (obs : Obs) (terrain : Terrain) (w : Q2)
    (hfun : Coord → Q2) (σ : AState) (s s_n : Coord)
    (himp : ¬ gval σ s + Real_Astar.cost obs terrain s s_n < gval σ s_n) :
    ∀ y, gval (Real_Astar.relax obs terrain w hfun σ s s_n) y = gval σ y := by
  intro y
  unfold Real_Astar.relax
  dsimp only
  rw [show (dlookup (if (dlookup σ.g s_n).isNone then dinsert σ.g s_n ⊤
      else σ.g) s_n).getD ⊤ = gval σ s_n from g1_lookup_eq σ s_n]
  rw [if_neg himp]
  split
  next h => exact gval_top_insert σ s_n h y
  next h => rfl

/-- In the improvement branch, `relax` pushes the entry
`(new_cost + w * h(s_n), s_n)` in front of the open container. -/
theorem relax_OPEN_imp (obs : Obs) (terrain : Terrain) (w : Q2)
    (hfun : Coord → Q2) (σ : AState) (s s_n : Coord)
    (himp : gval σ s + Real_Astar.cost obs terrain s s_n < gval σ s_n) :
    (Real_Astar.relax obs terrain w hfun σ s s_n).OPEN =
      (gval σ s + Real_Astar.cost obs terrain s s_n +
        ((w * hfun s_n : Q2) : WithTop Q2), s_n) :: σ.OPEN := by
  unfold Real_Astar.relax
  dsimp only
  rw [show (dlookup (if (dlookup σ.g s_n).isNone then dinsert σ.g s_n ⊤
      else σ.g) s_n).getD ⊤ = gval σ s_n from g1_lookup_eq σ s_n]
  rw [if_pos himp]
  show (Real_Astar.f_value w hfun _ s_n, s_n) :: σ.OPEN = _
  unfold Real_Astar.f_value gval
  dsimp only
  rw [dlookup_dinsert_self]
  rfl

/-- Outside the improvement branch, `relax` pushes nothing. -/
theorem relax_OPEN_nimp (obs : Obs) (terrain : Terrain) (w : Q2)
    (hfun : Coord → Q2) (σ : AState) (s s_n : Coord)
    (himp : ¬ gval σ s + Real_Astar.cost obs terrain s s_n < gval σ s_n) :
    (Real_Astar.relax obs terrain w hfun σ s s_n).OPEN = σ.OPEN := by
  unfold Real_Astar.relax
  dsimp only
  rw [show (dlookup (if (dlookup σ.g s_n).isNone then dinsert σ.g s_n ⊤
      else σ.g) s_n).getD ⊤ = gval σ s_n from g1_lookup_eq σ s_n]
  rw [if_neg himp]

/-- In the improvement branch, `relax` rebinds `PARENT[s_n] := s`. -/
theorem relax_PARENT_imp (obs : Obs) (terrain : Terrain) (w : Q2)
    (hfun : Coord → Q2) (σ : AState) (s s_n : Coord)
    (himp : gval σ s + Real_Astar.cost obs terrain s s_n < gval σ s_n) :
    (Real_Astar.relax obs terrain w hfun σ s s_n).PARENT =
      dinsert σ.PARENT s_n s := by
  unfold Real_Astar.relax
  dsimp only
  rw [show (dlookup (if (dlookup σ.g s_n).isNone then dinsert σ.g s_n ⊤
      else σ.g) s_n).getD ⊤ = gval σ s_n from g1_lookup_eq σ s_n]
  rw [if_pos himp]

/-- Outside the improvement branch, `relax` leaves `PARENT` alone. -/
theorem relax_PARENT_nimp (obs : Obs) (terrain : Terrain) (w : Q2)
    (hfun : Coord → Q2) (σ : AState) (s s_n : Coord)
    (himp : ¬ gval σ s + Real_Astar.cost obs terrain s s_n < gval σ s_n) :
    (Real_Astar.relax obs terrain w hfun σ s s_n).PARENT = σ.PARENT := by
  unfold Real_Astar.relax
  dsimp only
  rw [show (dlookup (if (dlookup σ.g s_n).isNone then dinsert σ.g s_n ⊤
      else σ.g) s_n).getD ⊤ = gval σ s_n from g1_lookup_eq σ s_n]
  rw [if_neg himp]

/-- `relax` never increases any `g` value. -/
theorem relax_gmono (obs : Obs) (terrain : Terrain) (w : Q2)
    (hfun : Coord → Q2) (σ : AState) (s s_n : Coord) (y : Coord) :
    gval (Real_Astar.relax obs terrain w hfun σ s s_n) y ≤ gval σ y := by
  by_cases himp : gval σ s + Real_Astar.cost obs terrain s s_n < gval σ s_n
  · rw [relax_gval_imp obs terrain w hfun σ s s_n himp y]
    split
    next hy =>
      subst hy
      exact le_of_lt himp
    next hy => exact le_refl _
  · rw [relax_gval_nimp obs terrain w hfun σ s s_n himp y]

/-- `relax` of the edge `s → s_n` touches no `g` value except `g[s_n]`. -/
theorem relax_stable_ne (obs : Obs) (terrain : Terrain) (w : Q2)
    (hfun : Coord → Q2) (σ : AState) (s s_n : Coord) (y : Coord)
    (hy : y ≠ s_n) :
    gval (Real_Astar.relax obs terrain w hfun σ s s_n) y = gval σ y := by
  by_cases himp : gval σ s + Real_Astar.cost obs terrain s s_n < gval σ s_n
  · rw [relax_gval_imp obs terrain w hfun σ s s_n himp y, if_neg hy]
  · rw [relax_gval_nimp obs terrain w hfun σ s s_n himp y]

/-- After `relax`, the edge `s → s_n` is relaxed with respect to the old
`g[s]`. -/
theorem relax_self_bound (obs : Obs) (terrain : Terrain) (w : Q2)
    (hfun : Coord → Q2) (σ : AState) (s s_n : Coord) :
    gval (Real_Astar.relax obs terrain w hfun σ s s_n) s_n ≤
      gval σ s + Real_Astar.cost obs terrain s s_n := by
  by_cases himp : gval σ s + Real_Astar.cost obs terrain s s_n < gval σ s_n
  · rw [relax_gval_imp obs terrain w hfun σ s s_n himp s_n, if_pos rfl]
  · rw [relax_gval_nimp obs terrain w hfun σ s s_n himp s_n]
    exact le_of_not_lt himp

/-- Folding `relax` over any neighbor list never increases any `g` value. -/
theorem astar_fold_gmono (obs : Obs) (terrain : Terrain) (w : Q2)
    (hfun : Coord → Q2) (s : Coord) :
    ∀ (l : List Coord) (σ : AState) (y : Coord),
      gval (l.foldl (fun τ s_n =>
        Real_Astar.relax obs terrain w hfun τ s s_n) σ) y ≤ gval σ y := by
  intro l
  induction l with
  | nil =>
    intro σ y
    exact le_refl _
  | cons a t ih =>
    intro σ y
    rw [List.foldl_cons]
    exact le_trans (ih _ y) (relax_gmono obs terrain w hfun σ s a y)

/-- Folding `relax` over a neighbor list leaves every coordinate outside the
list untouched. -/
theorem astar_fold_stable (obs : Obs) (terrain : Terrain) (w : Q2)
    (hfun : Coord → Q2) (s : Coord) :
    ∀ (l : List Coord) (σ : AState) (y : Coord), (∀ x ∈ l, y ≠ x) →
      gval (l.foldl (fun τ s_n =>
        Real_Astar.relax obs terrain w hfun τ s s_n) σ) y = gval σ y := by
  intro l
  induction l with
  | nil =>
    intro σ y _
    rfl
  | cons a t ih =>
    intro σ y hy
    rw [List.foldl_cons]
    rw [ih _ y (fun x hx => hy x (List.mem_cons_of_mem _ hx))]
    exact relax_stable_ne obs terrain w hfun σ s a y
      (hy a (List.mem_cons_self _ _))

/-- After folding `relax` over a list of cells distinct from `s`, every cell
of the list is relaxed with respect to the final `g[s]`. -/
theorem astar_fold_neighbor_bound (obs : Obs) (terrain : Terrain) (w : Q2)
    (hfun : Coord → Q2) (s : Coord) :
    ∀ (l : List Coord) (σ : AState), (∀ x ∈ l, x ≠ s) →
      ∀ x ∈ l, gval (l.foldl (fun τ s_n =>
          Real_Astar.relax obs terrain w hfun τ s s_n) σ) x ≤
        gval (l.foldl (fun τ s_n =>
          Real_Astar.relax obs terrain w hfun τ s s_n) σ) s +
        Real_Astar.cost obs terrain s x := by
  intro l
  induction l with
  | nil =>
    intro σ _ x hx
    exact absurd hx (List.not_mem_nil x)
  | cons a t ih =>
    intro σ hne x hx
    have hs_stable : gval ((a :: t).foldl (fun τ s_n =>
        Real_Astar.relax obs terrain w hfun τ s s_n) σ) s = gval σ s := by
      rw [List.foldl_cons]
      rw [astar_fold_stable obs terrain w hfun s t _ s
        (fun z hz => fun hc => hne z (List.mem_cons_of_mem _ hz) hc.symm)]
      exact relax_stable_ne obs terrain w hfun σ s a s
        (fun hc => hne a (List.mem_cons_self _ _) hc.symm)
    rcases List.mem_cons.mp hx with h1 | h1
    · subst h1
      rw [hs_stable, List.foldl_cons]
      refine le_trans (astar_fold_gmono obs terrain w hfun s t _ x) ?_
      exact relax_self_bound obs terrain w hfun σ s x
    · rw [List.foldl_cons]
      exact ih (Real_Astar.relax obs terrain w hfun σ s a)
        (fun z hz => hne z (List.mem_cons_of_mem _ hz)) x h1

/-- `relaxAll` never increases any `g` value. -/
theorem relaxAll_gmono (obs : Obs) (terrain : Terrain) (w : Q2)
    (hfun : Coord → Q2) (σ : AState) (s y : Coord) :
    gval (Real_Astar.relaxAll obs terrain u_set8 w hfun σ s) y ≤ gval σ y :=
  astar_fold_gmono obs terrain w hfun s _ σ y

/-- After a full expansion of `s`, every outgoing `u_set8` edge of `s` is
relaxed. -/
theorem relaxAll_self_bound (obs : Obs) (terrain : Terrain) (w : Q2)
    (hfun : Coord → Q2) (σ : AState) (s : Coord) :
    ∀ u ∈ u_set8,
      gval (Real_Astar.relaxAll obs terrain u_set8 w hfun σ s)
          (s.1 + u.1, s.2 + u.2) ≤
        gval (Real_Astar.relaxAll obs terrain u_set8 w hfun σ s) s +
        Real_Astar.cost obs terrain s (s.1 + u.1, s.2 + u.2) := by
  intro u hu
  refine astar_fold_neighbor_bound obs terrain w hfun s
    (get_neighbor u_set8 s) σ ?_ _ ?_
  · intro x hx
    exact (neighbor_ne s x (mem_get_neighbor u_set8 s x hx)).symm
  · exact List.mem_map.mpr ⟨u, hu, rfl⟩

/-- Extending a collision-free walk by one more valid edge. -/
theorem IsPathFrom_extend (obs : Obs) (terrain : Terrain) (l : List Coord)
    (src z1 z2 : Coord) (h : IsPathFrom obs terrain l src z1)
    (hform : ∃ u ∈ u_set8, z2 = (z1.1 + u.1, z1.2 + u.2))
    (hcost : Real_Astar.cost obs terrain z1 z2 ≠ ⊤) :
    IsPathFrom obs terrain (l ++ [z2]) src z2 ∧
    pathCost obs terrain (l ++ [z2]) =
      pathCost obs terrain l + Real_Astar.cost obs terrain z1 z2 := by
  obtain ⟨hh, hl, hv⟩ := h
  have hlnil : l ≠ [] := by
    intro hc
    rw [hc] at hh
    exact Option.noConfusion hh
  refine ⟨⟨?_, ?_, ?_⟩, ?_⟩
  · obtain ⟨b, t, rfl⟩ := List.exists_cons_of_ne_nil hlnil
    simpa using hh
  · exact List.getLast?_concat _
  · refine List.Chain'.append hv (List.chain'_singleton _) ?_
    intro x hx y hy
    simp only [Option.mem_def, hl, Option.some.injEq] at hx
    simp only [Option.mem_def, List.head?_cons, Option.some.injEq] at hy
    subst hx
    subst hy
    exact ⟨hform, hcost⟩
  · exact pathCost_append obs terrain l z1 z2 hl

/-- The pieces of the optimality invariant that do not mention the relaxed
outgoing edges of finalized nodes (on the A* engine with `u_set8`). -/
structure C4Weak (obs : Obs) (terrain : Terrain) (w : Q2)
    (hfun : Coord → Q2) (s_start : Coord) (σ : AState) : Prop where
  hg0 : gval σ s_start = 0
  hnn : ∀ y, (0 : WithTop Q2) ≤ gval σ y
  hreach : ∀ x, gval σ x ≠ ⊤ → ∃ l, IsPathFrom obs terrain l s_start x ∧
    pathCost obs terrain l = gval σ x
  hopenc : ∀ x, x ∉ σ.CLOSED → gval σ x ≠ ⊤ →
    ∃ q, (q, x) ∈ σ.OPEN ∧ q ≤ gval σ x + ((w * hfun x : Q2) : WithTop Q2)
  hentry : ∀ e ∈ σ.OPEN, gval σ e.2 + ((w * hfun e.2 : Q2) : WithTop Q2) ≤ e.1
  hopt : ∀ x ∈ σ.CLOSED, ∀ l, IsPathFrom obs terrain l s_start x →
    gval σ x ≤ pathCost obs terrain l
  hpar : ∀ x p, dlookup σ.PARENT x = some p → x ≠ s_start →
    p ∈ σ.CLOSED ∧
    gval σ x = gval σ p + Real_Astar.cost obs terrain p x

/-- The full optimality invariant: additionally, every `u_set8` edge leaving
a finalized node is relaxed. -/
structure C4Inv (obs : Obs) (terrain : Terrain) (w : Q2)
    (hfun : Coord → Q2) (s_start : Coord) (σ : AState)
    extends C4Weak obs terrain w hfun s_start σ : Prop where
  hrlx : ∀ x ∈ σ.CLOSED, ∀ u ∈ u_set8,
    gval σ (x.1 + u.1, x.2 + u.2) ≤
      gval σ x + Real_Astar.cost obs terrain x (x.1 + u.1, x.2 + u.2)

/-- One `relax` of an edge out of a finalized node preserves the weak
optimality invariant, and leaves the `g` value of every finalized node
unchanged (a finalized node's `g` is already optimal, so it cannot be
improved). -/
theorem c4_relax_main (obs : Obs) (terrain : Terrain) (w : Q2)
    (hfun : Coord → Q2) (s_start : Coord) (σ : AState) (s s_n : Coord)
    (hs_closed : s ∈ σ.CLOSED)
    (hn : ∃ u ∈ u_set8, s_n = (s.1 + u.1, s.2 + u.2))
    (hinv : C4Weak obs terrain w hfun s_start σ) :
    C4Weak obs terrain w hfun s_start
      (Real_Astar.relax obs terrain w hfun σ s s_n) ∧
    ∀ x ∈ σ.CLOSED, gval (Real_Astar.relax obs terrain w hfun σ s s_n) x =
      gval σ x := by
  have hsne : s ≠ s_n := neighbor_ne s s_n hn
  have hCL := astar_relax_CLOSED obs terrain w hfun σ s s_n
  by_cases himp : gval σ s + Real_Astar.cost obs terrain s s_n < gval σ s_n
  · set new := gval σ s + Real_Astar.cost obs terrain s s_n with hnew
    have hgchar := relax_gval_imp obs terrain w hfun σ s s_n himp
    have hOP := relax_OPEN_imp obs terrain w hfun σ s s_n himp
    have hPA := relax_PARENT_imp obs terrain w hfun σ s s_n himp
    have hnew_ne : new ≠ ⊤ := ne_top_of_lt himp
    have hgs_ne : gval σ s ≠ ⊤ := (WithTop.add_ne_top.mp hnew_ne).1
    have hcost_ne : Real_Astar.cost obs terrain s s_n ≠ ⊤ :=
      (WithTop.add_ne_top.mp hnew_ne).2
    obtain ⟨ls, hls, hlscost⟩ := hinv.hreach s hgs_ne
    obtain ⟨hpath_n, hcost_n⟩ :=
      IsPathFrom_extend obs terrain ls s_start s s_n hls hn hcost_ne
    have hpc_n : pathCost obs terrain (ls ++ [s_n]) = new := by
      rw [hcost_n, hlscost]
    have hsn_not_closed : s_n ∉ σ.CLOSED := by
      intro hc
      have hle := hinv.hopt s_n hc (ls ++ [s_n]) hpath_n
      rw [hpc_n] at hle
      exact absurd (lt_of_le_of_lt hle himp) (lt_irrefl _)
    have hnew_nn : (0 : WithTop Q2) ≤ new :=
      add_nonneg (hinv.hnn s) (cost_nonneg obs terrain s s_n)
    have hsn_start : s_n ≠ s_start := by
      intro hc
      rw [hc, hinv.hg0] at himp
      exact absurd (lt_of_le_of_lt hnew_nn himp) (lt_irrefl 0)
    have hstable : ∀ x ∈ σ.CLOSED,
        gval (Real_Astar.relax obs terrain w hfun σ s s_n) x = gval σ x := by
      intro x hx
      have hxn : x ≠ s_n := fun hc => hsn_not_closed (hc ▸ hx)
      rw [hgchar x, if_neg hxn]
    refine ⟨⟨?_, ?_, ?_, ?_, ?_, ?_, ?_⟩, hstable⟩
    · rw [hgchar s_start, if_neg (fun hc => hsn_start hc.symm)]
      exact hinv.hg0
    · intro y
      rw [hgchar y]
      split
      · exact hnew_nn
      · exact hinv.hnn y
    · intro x hx
      by_cases hxn : x = s_n
      · rw [hxn]
        refine ⟨ls ++ [s_n], hpath_n, ?_⟩
        rw [hgchar s_n, if_pos rfl]
        exact hpc_n
      · rw [hgchar x, if_neg hxn] at hx
        obtain ⟨l2, hl2, hl2c⟩ := hinv.hreach x hx
        refine ⟨l2, hl2, ?_⟩
        rw [hgchar x, if_neg hxn]
        exact hl2c
    · intro x hxc hxg
      rw [hCL] at hxc
      by_cases hxn : x = s_n
      · rw [hxn]
        refine ⟨new + ((w * hfun s_n : Q2) : WithTop Q2), ?_, ?_⟩
        · rw [hOP]
          exact List.mem_cons_self _ _
        · rw [hgchar s_n, if_pos rfl]
      · rw [hgchar x, if_neg hxn] at hxg
        obtain ⟨q, hqmem, hqle⟩ := hinv.hopenc x hxc hxg
        refine ⟨q, ?_, ?_⟩
        · rw [hOP]
          exact List.mem_cons_of_mem _ hqmem
        · rw [hgchar x, if_neg hxn]
          exact hqle
    · intro e he
      rw [hOP] at he
      rcases List.mem_cons.mp he with h1 | h1
      · rw [h1]
        show gval _ s_n + _ ≤ new + _
        rw [hgchar s_n, if_pos rfl]
      · refine le_trans (add_le_add_right ?_ _) (hinv.hentry e h1)
        exact relax_gmono obs terrain w hfun σ s s_n e.2
    · intro x hx l hl
      rw [hCL] at hx
      rw [hstable x hx]
      exact hinv.hopt x hx l hl
    · intro x p hx hxs
      rw [hPA] at hx
      by_cases hxn : x = s_n
      · rw [hxn] at hx
        rw [dlookup_dinsert_self] at hx
        have hps : p = s := by
          injection hx with h
          exact h.symm
        rw [hxn, hps]
        refine ⟨by rw [hCL]; exact hs_closed, ?_⟩
        rw [hgchar s_n, if_pos rfl, hstable s hs_closed]
      · rw [dlookup_dinsert_ne _ _ _ _ hxn] at hx
        obtain ⟨hpc, hpeq⟩ := hinv.hpar x p hx hxs
        refine ⟨by rw [hCL]; exact hpc, ?_⟩
        rw [hgchar x, if_neg hxn, hstable p hpc]
        exact hpeq
  · have hgeq := relax_gval_nimp obs terrain w hfun σ s s_n himp
    have hOP := relax_OPEN_nimp obs terrain w hfun σ s s_n himp
    have hPA := relax_PARENT_nimp obs terrain w hfun σ s s_n himp
    refine ⟨⟨?_, ?_, ?_, ?_, ?_, ?_, ?_⟩, fun x _ => hgeq x⟩
    · rw [hgeq]
      exact hinv.hg0
    · intro y
      rw [hgeq]
      exact hinv.hnn y
    · intro x hx
      rw [hgeq] at hx
      obtain ⟨l2, hl2, hl2c⟩ := hinv.hreach x hx
      refine ⟨l2, hl2, ?_⟩
      rw [hgeq]
      exact hl2c
    · intro x hxc hxg
      rw [hCL] at hxc
      rw [hgeq] at hxg
      obtain ⟨q, hqmem, hqle⟩ := hinv.hopenc x hxc hxg
      refine ⟨q, by rw [hOP]; exact hqmem, ?_⟩
      rw [hgeq]
      exact hqle
    · intro e he
      rw [hOP] at he
      rw [hgeq]
      exact hinv.hentry e he
    · intro x hx l hl
      rw [hCL] at hx
      rw [hgeq]
      exact hinv.hopt x hx l hl
    · intro x p hx hxs
      rw [hPA] at hx
      obtain ⟨hpc, hpeq⟩ := hinv.hpar x p hx hxs
      refine ⟨by rw [hCL]; exact hpc, ?_⟩
      rw [hgeq, hgeq]
      exact hpeq

/-- A full expansion of a finalized node preserves the weak invariant and
the `g` values of all previously finalized nodes. -/
theorem c4_relaxAll_main (obs : Obs) (terrain : Terrain) (w : Q2)
    (hfun : Coord → Q2) (s_start : Coord) (σ : AState) (s : Coord)
    (hs_closed : s ∈ σ.CLOSED)
    (hinv : C4Weak obs terrain w hfun s_start σ) :
    C4Weak obs terrain w hfun s_start
      (Real_Astar.relaxAll obs terrain u_set8 w hfun σ s) ∧
    ∀ x ∈ σ.CLOSED,
      gval (Real_Astar.relaxAll obs terrain u_set8 w hfun σ s) x =
        gval σ x := by
  unfold Real_Astar.relaxAll
  have main : ∀ (l : List Coord),
      (∀ x ∈ l, ∃ u ∈ u_set8, x = (s.1 + u.1, s.2 + u.2)) →
      ∀ σ : AState, s ∈ σ.CLOSED → C4Weak obs terrain w hfun s_start σ →
      C4Weak obs terrain w hfun s_start (l.foldl
        (fun τ s_n => Real_Astar.relax obs terrain w hfun τ s s_n) σ) ∧
      ∀ x ∈ σ.CLOSED, gval (l.foldl
        (fun τ s_n => Real_Astar.relax obs terrain w hfun τ s s_n) σ) x =
        gval σ x := by
    intro l
    induction l with
    | nil =>
      intro _ σ _ h
      exact ⟨h, fun x _ => rfl⟩
    | cons a t ih =>
      intro hforms σ hsc hinv2
      simp only [List.foldl_cons]
      obtain ⟨hw2, hst2⟩ := c4_relax_main obs terrain w hfun s_start σ s a hsc
        (hforms a (List.mem_cons_self _ _)) hinv2
      have hsc2 : s ∈ (Real_Astar.relax obs terrain w hfun σ s a).CLOSED := by
        rw [astar_relax_CLOSED]
        exact hsc
      obtain ⟨hw3, hst3⟩ := ih
        (fun x hx => hforms x (List.mem_cons_of_mem _ hx)) _ hsc2 hw2
      refine ⟨hw3, ?_⟩
      intro x hx
      rw [hst3 x (by rw [astar_relax_CLOSED]; exact hx), hst2 x hx]
  exact main _ (mem_get_neighbor u_set8 s) σ hs_closed hinv

/-- The cut argument: along any collision-free walk from the start, either
the endpoint's `g` value already beats the walk's cost, or the open
container holds an entry whose priority is at most the walk's cost plus the
endpoint's weighted heuristic. -/
theorem c4_cut (obs : Obs) (terrain : Terrain) (w : Q2)
    (hfun : Coord → Q2) (s_start : Coord) (σ : AState)
    (hw0 : 0 ≤ w) (hw1 : w ≤ 1)
    (hcons : ∀ a b : Coord, (∃ u ∈ u_set8, b = (a.1 + u.1, a.2 + u.2)) →
      ∀ c : Q2, Real_Astar.cost obs terrain a b = some c →
        hfun a ≤ c + hfun b)
    (hinv : C4Inv obs terrain w hfun s_start σ) :
    ∀ (l : List Coord) (z : Coord), IsPathFrom obs terrain l s_start z →
      gval σ z ≤ pathCost obs terrain l ∨
      ∃ e ∈ σ.OPEN, e.1 ≤ pathCost obs terrain l +
        ((w * hfun z : Q2) : WithTop Q2) := by
  intro l
  induction l using List.reverseRecOn with
  | nil =>
    intro z h
    exact absurd h.1 (by simp)
  | append_singleton lp a ih =>
    intro z h
    obtain ⟨hhead, hlastz, hvalid⟩ := h
    have hza : z = a := by
      rw [List.getLast?_concat] at hlastz
      injection hlastz with h2
      exact h2.symm
    subst hza
    cases lp with
    | nil =>
      have has : z = s_start := by
        simp only [List.nil_append, List.head?_cons, Option.some.injEq] at hhead
        exact hhead
      left
      rw [show pathCost obs terrain ([] ++ [z]) = 0 from rfl, has, hinv.hg0]
    | cons b t =>
      obtain ⟨z1, hz1⟩ : ∃ z1, (b :: t).getLast? = some z1 :=
        ⟨(b :: t).getLast (by simp),
          List.getLast?_eq_getLast _ (by simp)⟩
      have hb : b = s_start := by
        simpa using hhead
      have hhead2 : (b :: t).head? = some s_start := by
        rw [List.head?_cons, hb]
      obtain ⟨hc1, hc2, hlink⟩ := List.chain'_append.mp
        (show List.Chain' _ ((b :: t) ++ [z]) from hvalid)
      have hstep := hlink z1 (by rw [hz1]; rfl) z rfl
      obtain ⟨hform, hcostne⟩ := hstep
      have hpath1 : IsPathFrom obs terrain (b :: t) s_start z1 :=
        ⟨hhead2, hz1, hc1⟩
      have hpcapp : pathCost obs terrain ((b :: t) ++ [z]) =
          pathCost obs terrain (b :: t) +
            Real_Astar.cost obs terrain z1 z :=
        pathCost_append obs terrain (b :: t) z1 z hz1
      have hconsstep : (((w * hfun z1 : Q2)) : WithTop Q2) ≤
          Real_Astar.cost obs terrain z1 z +
            ((w * hfun z : Q2) : WithTop Q2) :=
        weighted_consistency obs terrain w hfun hw0 hw1 hcons z1 z hform
      rcases ih z1 hpath1 with hgz1 | he2
      · have hpc_ne : pathCost obs terrain (b :: t) ≠ ⊤ :=
          pathCost_ne_top obs terrain _ hc1
        have hgz1_ne : gval σ z1 ≠ ⊤ := by
          intro hc
          rw [hc] at hgz1
          exact hpc_ne (top_le_iff.mp hgz1)
        by_cases hcz1 : z1 ∈ σ.CLOSED
        · left
          obtain ⟨u, hu, hfa⟩ := hform
          have hd := hinv.hrlx z1 hcz1 u hu
          rw [← hfa] at hd
          calc gval σ z ≤ gval σ z1 + Real_Astar.cost obs terrain z1 z := hd
            _ ≤ pathCost obs terrain (b :: t) +
                Real_Astar.cost obs terrain z1 z := add_le_add_right hgz1 _
            _ = pathCost obs terrain ((b :: t) ++ [z]) := hpcapp.symm
        · right
          obtain ⟨q, hqmem, hqle⟩ := hinv.hopenc z1 hcz1 hgz1_ne
          refine ⟨(q, z1), hqmem, ?_⟩
          show q ≤ _
          calc q ≤ gval σ z1 + ((w * hfun z1 : Q2) : WithTop Q2) := hqle
            _ ≤ pathCost obs terrain (b :: t) +
                ((w * hfun z1 : Q2) : WithTop Q2) := add_le_add_right hgz1 _
            _ ≤ pathCost obs terrain (b :: t) +
                (Real_Astar.cost obs terrain z1 z +
                  ((w * hfun z : Q2) : WithTop Q2)) :=
              add_le_add_left hconsstep _
            _ = pathCost obs terrain ((b :: t) ++ [z]) +
                ((w * hfun z : Q2) : WithTop Q2) := by
              rw [hpcapp]
              exact (add_assoc _ _ _).symm
      · right
        obtain ⟨e, he, hbound⟩ := he2
        refine ⟨e, he, ?_⟩
        calc e.1 ≤ pathCost obs terrain (b :: t) +
              ((w * hfun z1 : Q2) : WithTop Q2) := hbound
          _ ≤ pathCost obs terrain (b :: t) +
              (Real_Astar.cost obs terrain z1 z +
                ((w * hfun z : Q2) : WithTop Q2)) :=
            add_le_add_left hconsstep _
          _ = pathCost obs terrain ((b :: t) ++ [z]) +
              ((w * hfun z : Q2) : WithTop Q2) := by
            rw [hpcapp]
            exact (add_assoc _ _ _).symm

/-- The loop preserves the optimality invariant and delivers its weak part
at the final state (the final pop of the goal re-establishes everything but
the relaxedness of the goal's own outgoing edges). -/
theorem c4_loop_inv (obs : Obs) (terrain : Terrain) (w : Q2)
    (hfun : Coord → Q2) (s_start s_goal : Coord)
    (hw0 : 0 ≤ w) (hw1 : w ≤ 1)
    (hcons : ∀ a b : Coord, (∃ u ∈ u_set8, b = (a.1 + u.1, a.2 + u.2)) →
      ∀ c : Q2, Real_Astar.cost obs terrain a b = some c →
        hfun a ≤ c + hfun b)
    (fuel : ℕ) (σ : AState)
    (hinv : C4Inv obs terrain w hfun s_start σ) :
    C4Weak obs terrain w hfun s_start
      (Real_Astar.searching_loop obs terrain u_set8 w hfun s_goal fuel σ) := by
  induction fuel generalizing σ with
  | zero => exact hinv.toC4Weak
  | succ fuel ih =>
    rw [Real_Astar.searching_loop]
    cases hpop : popMin σ.OPEN with
    | none => exact hinv.toC4Weak
    | some er =>
      obtain ⟨m, rest⟩ := er
      obtain ⟨hmem, hrest, hmin⟩ := popMin_some hpop
      simp only
      have hopt_s : ∀ l, IsPathFrom obs terrain l s_start m.2 →
          gval σ m.2 ≤ pathCost obs terrain l := by
        by_cases hsc : m.2 ∈ σ.CLOSED
        · intro l hl
          exact hinv.hopt m.2 hsc l hl
        · intro l hl
          rcases c4_cut obs terrain w hfun s_start σ hw0 hw1 hcons hinv l
            m.2 hl with h1 | he2
          · exact h1
          · obtain ⟨e, he, hbound⟩ := he2
            have h2 : gval σ m.2 + ((w * hfun m.2 : Q2) : WithTop Q2) ≤ m.1 :=
              hinv.hentry m hmem
            have h4 : gval σ m.2 + ((w * hfun m.2 : Q2) : WithTop Q2) ≤
                pathCost obs terrain l +
                  ((w * hfun m.2 : Q2) : WithTop Q2) :=
              le_trans h2 (le_trans (hmin e he) hbound)
            exact (WithTop.add_le_add_iff_right WithTop.coe_ne_top).mp h4
      have hW1 : C4Weak obs terrain w hfun s_start
          { σ with OPEN := rest, CLOSED := σ.CLOSED ++ [m.2] } := by
        refine ⟨hinv.hg0, hinv.hnn, hinv.hreach, ?_, ?_, ?_, ?_⟩
        · intro x hxc hxg
          have hxc1 : x ∉ σ.CLOSED := fun hc =>
            hxc (List.mem_append.mpr (Or.inl hc))
          have hxm : x ≠ m.2 := fun hc =>
            hxc (List.mem_append.mpr (Or.inr (by
              rw [hc]
              exact List.mem_singleton_self _)))
          obtain ⟨q, hqmem, hqle⟩ := hinv.hopenc x hxc1 hxg
          refine ⟨q, ?_, hqle⟩
          show (q, x) ∈ rest
          rw [hrest]
          have hne_entry : ((q, x) : Entry) ≠ m := by
            intro hc
            exact hxm (congrArg Prod.snd hc)
          exact (List.mem_erase_of_ne hne_entry).mpr hqmem
        · intro e he
          refine hinv.hentry e ?_
          show e ∈ σ.OPEN
          rw [hrest] at he
          exact List.mem_of_mem_erase he
        · intro x hx l hl
          rcases List.mem_append.mp hx with h1 | h1
          · exact hinv.hopt x h1 l hl
          · have hxm2 := List.mem_singleton.mp h1
            rw [hxm2] at hl
            rw [hxm2]
            exact hopt_s l hl
        · intro x p hx hxs
          obtain ⟨hpc, hpeq⟩ := hinv.hpar x p hx hxs
          exact ⟨List.mem_append.mpr (Or.inl hpc), hpeq⟩
      by_cases hg : m.2 = s_goal
      · rw [if_pos hg]
        exact hW1
      · rw [if_neg hg]
        have hsc1 : m.2 ∈ σ.CLOSED ++ [m.2] :=
          List.mem_append.mpr (Or.inr (List.mem_singleton_self _))
        obtain ⟨hW2, hst2⟩ :=
          c4_relaxAll_main obs terrain w hfun s_start _ m.2 hsc1 hW1
        refine ih _ ⟨hW2, ?_⟩
        intro x hx u hu
        rw [astar_relaxAll_CLOSED] at hx
        by_cases hxm : x = m.2
        · rw [hxm]
          exact relaxAll_self_bound obs terrain w hfun _ m.2 u hu
        · have hx1 : x ∈ σ.CLOSED := by
            rcases List.mem_append.mp hx with h1 | h1
            · exact h1
            · exact absurd (List.mem_singleton.mp h1) hxm
          have hold : gval σ (x.1 + u.1, x.2 + u.2) ≤
              gval σ x + Real_Astar.cost obs terrain x
                (x.1 + u.1, x.2 + u.2) := hinv.hrlx x hx1 u hu
          have hxstable := hst2 x hx
          rw [hxstable]
          exact le_trans (relaxAll_gmono obs terrain w hfun _ m.2 _) hold

/-- The initial state satisfies the full optimality invariant (for distinct
endpoints: the initialization `g[goal] := +∞` would otherwise clobber
`g[start] = 0`). -/
theorem c4_init_inv (obs : Obs) (terrain : Terrain) (w : Q2)
    (hfun : Coord → Q2) (s_start s_goal : Coord) (hne : s_start ≠ s_goal) :
    C4Inv obs terrain w hfun s_start
      (Real_Astar.init_state w hfun s_start s_goal) := by
  have hg : ∀ y, gval (Real_Astar.init_state w hfun s_start s_goal) y =
      if y = s_goal then ⊤ else if y = s_start then 0 else ⊤ := by
    intro y
    show (dlookup (dinsert (dinsert [] s_start 0) s_goal ⊤) y).getD ⊤ = _
    by_cases h1 : y = s_goal
    · rw [if_pos h1, h1, dlookup_dinsert_self]
      rfl
    · rw [if_neg h1, dlookup_dinsert_ne _ _ _ _ h1]
      by_cases h2 : y = s_start
      · rw [if_pos h2, h2, dlookup_dinsert_self]
        rfl
      · rw [if_neg h2, dlookup_dinsert_ne _ _ _ _ h2]
        rfl
  refine ⟨⟨?_, ?_, ?_, ?_, ?_, ?_, ?_⟩, ?_⟩
  · rw [hg s_start, if_neg hne, if_pos rfl]
  · intro y
    rw [hg y]
    split
    · exact le_top
    · split
      · exact le_refl _
      · exact le_top
  · intro x hx
    rw [hg x] at hx
    by_cases h1 : x = s_goal
    · rw [if_pos h1] at hx
      exact absurd rfl hx
    · rw [if_neg h1] at hx
      by_cases h2 : x = s_start
      · rw [h2]
        refine ⟨[s_start], ⟨rfl, rfl, List.chain'_singleton _⟩, ?_⟩
        rw [hg s_start, if_neg hne, if_pos rfl]
        rfl
      · rw [if_neg h2] at hx
        exact absurd rfl hx
  · intro x hxc hxg
    rw [hg x] at hxg
    by_cases h1 : x = s_goal
    · rw [if_pos h1] at hxg
      exact absurd rfl hxg
    · rw [if_neg h1] at hxg
      by_cases h2 : x = s_start
      · rw [h2]
        refine ⟨Real_Astar.f_value w hfun
          { OPEN := [], CLOSED := [], PARENT := dinsert [] s_start s_start,
            g := dinsert (dinsert [] s_start 0) s_goal ⊤ } s_start, ?_, ?_⟩
        · show _ ∈ [(Real_Astar.f_value w hfun
            { OPEN := [], CLOSED := [], PARENT := dinsert [] s_start s_start,
              g := dinsert (dinsert [] s_start 0) s_goal ⊤ } s_start,
            s_start)]
          exact List.mem_singleton_self _
        · exact le_refl _
      · rw [if_neg h2] at hxg
        exact absurd rfl hxg
  · intro e he
    rw [show (Real_Astar.init_state w hfun s_start s_goal).OPEN =
      [(Real_Astar.f_value w hfun
        { OPEN := [], CLOSED := [], PARENT := dinsert [] s_start s_start,
          g := dinsert (dinsert [] s_start 0) s_goal ⊤ } s_start, s_start)]
      from rfl] at he
    rw [List.mem_singleton.mp he]
    exact le_refl _
  · intro x hx l hl
    exact absurd hx (List.not_mem_nil x)
  · intro x p hx hxs
    exfalso
    rw [show dlookup (Real_Astar.init_state w hfun s_start s_goal).PARENT x =
        dlookup (dinsert ([] : List (Coord × Coord)) s_start s_start) x
        from rfl, dlookup_dinsert_ne _ _ _ _ hxs] at hx
    exact Option.noConfusion hx
  · intro x hx u hu
    exact absurd hx (List.not_mem_nil x)

/-- The cost of the reversed parent chain telescopes to the `g` value of its
head: each link satisfies `g[x] = g[p] + cost(p, x)` and the chain ends at
the start, whose `g` is 0. -/
theorem chain_pathCost (obs : Obs) (terrain : Terrain) (σ : AState)
    (s_start : Coord) (hg0 : gval σ s_start = 0)
    (hpar : ∀ x p, dlookup σ.PARENT x = some p → x ≠ s_start →
      gval σ x = gval σ p + Real_Astar.cost obs terrain p x) :
    ∀ (tail : List Coord) (z : Coord), tail.getLast? = some s_start →
      List.Chain' (fun a b => dlookup σ.PARENT a = some b ∧ a ≠ s_start)
        (z :: tail) →
      pathCost obs terrain (z :: tail).reverse = gval σ z := by
  intro tail
  induction tail with
  | nil =>
    intro z hlast _
    exact absurd hlast (by simp)
  | cons p tail2 ih =>
    intro z hlast hchain
    obtain ⟨⟨hlink, hzne⟩, hrest⟩ := List.chain'_cons.mp hchain
    have heq := hpar z p hlink hzne
    cases tail2 with
    | nil =>
      have hp : p = s_start := by
        simp only [List.getLast?_singleton, Option.some.injEq] at hlast
        exact hlast
      show pathCost obs terrain [z, p].reverse = gval σ z
      rw [show ([z, p] : List Coord).reverse = [p, z] from rfl]
      show Real_Astar.cost obs terrain p z + pathCost obs terrain [z] =
        gval σ z
      rw [show pathCost obs terrain [z] = 0 from rfl, add_zero, heq, hp, hg0,
        zero_add]
    | cons q tail3 =>
      have hl3 : (q :: tail3).getLast? = some s_start := by
        rw [List.getLast?_cons_cons] at hlast
        exact hlast
      have hih := ih p hl3 hrest
      have hrev : (z :: p :: q :: tail3).reverse =
          (p :: q :: tail3).reverse ++ [z] := by
        simp [List.reverse_cons]
      rw [hrev]
      have hlastrev : ((p :: q :: tail3).reverse).getLast? = some p := by
        rw [List.getLast?_reverse]
        rfl
      rw [pathCost_append obs terrain _ p z hlastrev, hih, heq]

/-- C4: amended (start ≠ goal added).  On the 8-directional A* engine with
terrain multipliers ≥ 1, a consistent heuristic that vanishes at the goal
and heuristic weight 0 ≤ w ≤ 1, every successful search with distinct
endpoints returns a collision-free walk whose reversal runs from start to
goal, whose total edge cost equals g[goal] at termination, and g[goal] is
minimal among the costs of all collision-free walks from start to goal. -/
theorem C4_optimal_cost (obs : Obs) (terrain : Terrain) (w : Q2)
    (hfun : Coord → Q2) (s_start s_goal : Coord) (fuel : ℕ)
    (hter : ∀ kv ∈ terrain, 1 ≤ kv.2)
    (hw0 : 0 ≤ w) (hw1 : w ≤ 1)
    (_hgoal0 : hfun s_goal = 0)
    (hcons : ∀ a b : Coord, (∃ u ∈ u_set8, b = (a.1 + u.1, a.2 + u.2)) →
      ∀ c : Q2, Real_Astar.cost obs terrain a b = some c →
        hfun a ≤ c + hfun b)
    (hne : s_start ≠ s_goal)
    (hsuccess : s_goal ∈ (Real_Astar.searching_state obs terrain u_set8 w hfun
      s_start s_goal fuel).CLOSED) :
    ∃ l, (Real_Astar.searching obs terrain u_set8 w hfun s_start s_goal
        fuel).1 = some l ∧
      IsPathFrom obs terrain l.reverse s_start s_goal ∧
      pathCost obs terrain l.reverse =
        gval (Real_Astar.searching_state obs terrain u_set8 w hfun s_start
          s_goal fuel) s_goal ∧
      ∀ l2, IsPathFrom obs terrain l2 s_start s_goal →
        gval (Real_Astar.searching_state obs terrain u_set8 w hfun s_start
          s_goal fuel) s_goal ≤ pathCost obs terrain l2 := by
  have hweak : C4Weak obs terrain w hfun s_start
      (Real_Astar.searching_state obs terrain u_set8 w hfun s_start s_goal
        fuel) :=
    c4_loop_inv obs terrain w hfun s_start s_goal hw0 hw1 hcons fuel _
      (c4_init_inv obs terrain w hfun s_start s_goal hne)
  have hinv8 : C8Inv obs terrain s_start
      (Real_Astar.searching_state obs terrain u_set8 w hfun s_start s_goal
        fuel) :=
    c8_loop_inv obs terrain w hfun s_start s_goal hter fuel _
      (c8_init_inv obs terrain w hfun s_start s_goal hne)
  have hgoal_dom : dlookup (Real_Astar.searching_state obs terrain u_set8 w
      hfun s_start s_goal fuel).PARENT s_goal ≠ none :=
    hinv8.hclosed s_goal hsuccess
  have hgne : s_goal ≠ s_start := fun hc => hne hc.symm
  obtain ⟨tail, heq, hne2, hlast, hc1, hc2⟩ := extract_chain _ s_start
    (fun x p hx hxs => ⟨(hinv8.hchain x p hx hxs).2.2.1,
      (hinv8.hchain x p hx hxs).2.2.2⟩)
    ((Real_Astar.searching_state obs terrain u_set8 w hfun s_start s_goal
      fuel).PARENT.length + 1) s_goal [s_goal] hgne hgoal_dom
    (Nat.lt_succ_of_le (rank_le_length _ s_goal))
  refine ⟨s_goal :: tail, ?_, ⟨?_, ?_, ?_⟩, ?_, ?_⟩
  · show extract_path (Real_Astar.searching_state obs terrain u_set8 w hfun
      s_start s_goal fuel).PARENT s_start s_goal = some (s_goal :: tail)
    unfold extract_path
    rw [heq]
    rfl
  · rw [List.head?_reverse]
    obtain ⟨b, t, rfl⟩ := List.exists_cons_of_ne_nil hne2
    rw [List.getLast?_cons_cons]
    exact hlast
  · rw [List.getLast?_reverse]
    rfl
  · show List.Chain' _ (s_goal :: tail).reverse
    rw [List.chain'_reverse]
    refine List.Chain'.imp ?_ hc1
    intro a b hab
    obtain ⟨huf, hcost, _, _⟩ := hinv8.hchain a b hab.1 hab.2
    exact ⟨huf, hcost⟩
  · exact chain_pathCost obs terrain _ s_start hweak.hg0
      (fun x p hx hxs => (hweak.hpar x p hx hxs).2) tail s_goal hlast hc1
  · intro l2 hl2
    exact hweak.hopt s_goal hsuccess l2 hl2

/-- C4: counterexample to the claim as stated.  In the degenerate successful
search with start = goal = (0,0) (zero heuristic, weight 1, no obstacles),
g[goal] at termination is +∞ — the initialization `g[goal] = inf` clobbers
`g[start] = 0` — while the trivial collision-free walk [(0,0)] has cost 0,
so g[goal] is not the minimum achievable path cost. -/
theorem C4_degenerate_counterexample :
    (0, 0) ∈ (Real_Astar.searching_state [] [] u_set8 1 (fun _ => 0)
      (0, 0) (0, 0) 3).CLOSED ∧
    gval (Real_Astar.searching_state [] [] u_set8 1 (fun _ => 0)
      (0, 0) (0, 0) 3) (0, 0) = ⊤ ∧
    IsPathFrom [] [] [(0, 0)] (0, 0) (0, 0) ∧
    pathCost [] [] [((0 : ℤ), (0 : ℤ))] = 0 := by
  refine ⟨by decide, by decide, ⟨rfl, rfl, List.chain'_singleton _⟩, rfl⟩

/-- C4: witness on the obstacle-free run from (0,0) to (1,0) with the zero
heuristic (consistent, vanishing at the goal) and weight 1. -/
theorem C4_witness :
    ∃ l, (Real_Astar.searching [] [] u_set8 1 (fun _ => 0)
        (0, 0) (1, 0) 5).1 = some l ∧
      IsPathFrom [] [] l.reverse (0, 0) (1, 0) ∧
      pathCost [] [] l.reverse =
        gval (Real_Astar.searching_state [] [] u_set8 1 (fun _ => 0)
          (0, 0) (1, 0) 5) (1, 0) ∧
      ∀ l2, IsPathFrom [] [] l2 (0, 0) (1, 0) →
        gval (Real_Astar.searching_state [] [] u_set8 1 (fun _ => 0)
          (0, 0) (1, 0) 5) (1, 0) ≤ pathCost [] [] l2 :=
  C4_optimal_cost [] [] 1 (fun _ => 0) (0, 0) (1, 0) 5
    (by decide) (by decide) (by decide) rfl
    (by
      intro a b _ c hc
      have h0 := cost_nonneg [] [] a b
      rw [hc] at h0
      have h1 : (0 : Q2) ≤ c := WithTop.coe_le_coe.mp h0
      simpa using h1)
    (by decide) (by decide)

end Search2D
